import Mathlib

/-!
# Verification development for `group` (actors run together, first result wins)

The Go package `group` (file `group.go`) is embedded as follows.

* A Go `error` is `Option Nat`: `none` is `nil`, `some k` is the error value `k`.
* The part of the Go heap the package touches is `Heap`: the `chan struct{}`
  values created by `make` (only their closed flag matters, nothing is ever
  sent on them) and the cancel flags of contexts made by `context.WithCancel`.
* A Go function value (a closure over the heap) is a `Func`: a state machine
  that, at a program counter and a heap, returns, advances, is blocked, or
  panics.  An `Actor` is a pair of such functions, as in the source.
* `Run` runs several goroutines.  It is embedded as a step function on an
  explicit state; a schedule is the list of goroutines that move, in order,
  and the claims quantify over every schedule.
-/

namespace Group

/-! ## Go values and the heap -/

/-- Go `error`: `none` is `nil`. -/
abbrev Error := Option Nat

/-- A `chan struct{}` made by `make(chan struct{})`, as an index in the heap. -/
abbrev Chan := Nat

/-- The heap: closed flags of the `chan struct{}` values made so far, and the
cancel flags of the contexts made by `context.WithCancel` so far. -/
structure Heap where
  chans : List Bool
  ctxs : List Bool
deriving DecidableEq, Repr

/-- The builtin `make(chan struct{})`: a fresh open channel. -/
def Heap.makeChan (h : Heap) : Chan × Heap :=
  (h.chans.length, { h with chans := h.chans ++ [false] })

/-- Whether channel `c` has been closed (a receive on it then returns at once). -/
def Heap.isClosed (h : Heap) (c : Chan) : Bool :=
  h.chans.getD c false

/-- The heap after channel `c` has been closed. -/
def Heap.close (h : Heap) (c : Chan) : Heap :=
  { h with chans := h.chans.set c true }

/-- What one move of a Go function call does. -/
inductive Step (α : Type) where
  /-- the call returns `a` and leaves heap `h` -/
  | done (h : Heap) (a : α)
  /-- the call moved, leaves heap `h` and continues at `pc` -/
  | more (h : Heap) (pc : Nat)
  /-- the call cannot move in this heap (a receive on an open channel) -/
  | block
  /-- the call panics -/
  | panic

/-- A Go function value of type `func() α`: its behaviour at each program
counter and heap.  A call starts at program counter `0`. -/
abbrev Func (α : Type) := Nat → Heap → Step α

/-- The builtin `close(c)` as a function body: closing a closed channel panics. -/
def closeChan (c : Chan) : Func Unit :=
  fun _ h => if h.isClosed c then Step.panic else Step.done (h.close c) ()

/-- A `context.Context`, as far as the package sees it: whether its `Done()`
channel is closed in a given heap. -/
structure Context where
  done : Heap → Bool

/-- The result of `context.Background()`: never done. -/
def Background : Context := ⟨fun _ => false⟩

/-- The heap after the context with cancel flag `id` has been cancelled. -/
def Heap.cancel (h : Heap) (id : Nat) : Heap :=
  { h with ctxs := h.ctxs.set id true }

/-- The derived context of `context.WithCancel(parent)` with cancel flag `id`:
done when it has been cancelled or the parent is done. -/
def derived (parent : Context) (id : Nat) : Context :=
  ⟨fun h => h.ctxs.getD id false || parent.done h⟩

/-- The cancel function of `context.WithCancel`: sets the flag; calling it
again does nothing. -/
def cancelFunc (id : Nat) : Func Unit :=
  fun _ h => Step.done (h.cancel id) ()

/-- The library call `context.WithCancel(ctx)`: the derived context, its cancel
function and the heap holding the new cancel flag. -/
def WithCancel (ctx : Context) (h : Heap) : Context × Func Unit × Heap :=
  (derived ctx h.ctxs.length, cancelFunc h.ctxs.length,
    { h with ctxs := h.ctxs ++ [false] })

/-! ## Actors (`group.go`, lines 7-73) -/

/-- Source: `type actor struct { execute func() error; interrupt func() }`. -/
structure Actor where
  execute : Func Error
  interrupt : Func Unit

/-- Source: `func New(execute func() error, interrupt func()) Actor`. -/
def New (execute : Func Error) (interrupt : Func Unit) : Actor :=
  { execute := execute, interrupt := interrupt }

/-- Source: `func (a actor) Execute() error { return a.execute() }`. -/
def Actor.Execute (a : Actor) : Func Error := a.execute

/-- Source: `func (a actor) Interrupt() { a.interrupt() }`. -/
def Actor.Interrupt (a : Actor) : Func Unit := a.interrupt

/-- Source: `func Done(result error) Actor`: execute returns `result`, interrupt is
the empty function. -/
def Done (result : Error) : Actor :=
  New (fun _ h => Step.done h result) (fun _ h => Step.done h ())

/-- Source: `func WithContext(ctx, execute) Actor`: derives a cancellable context `c`,
execute is `execute(c)`, interrupt is `cancel`. -/
def WithContext (ctx : Context) (execute : Context → Func Error) (h : Heap) :
    Actor × Heap :=
  match WithCancel ctx h with
  | (c, cancel, h1) => (New (execute c) cancel, h1)

/-- Source: `func WithChannel(execute) Actor`: makes a channel `c`, execute is
`execute(c)`, interrupt is `close(c)`. -/
def WithChannel (execute : Chan → Func Error) (h : Heap) : Actor × Heap :=
  match h.makeChan with
  | (c, h1) => (New (execute c) (closeChan c), h1)

/-- The function `func(c <-chan struct{}) error { <-c; return result }` of the
test helper `waiter`: blocked while `c` is open, returns `result` once it is
closed. -/
def waitChan (result : Error) (c : Chan) : Func Error :=
  fun _ h => if h.isClosed c then Step.done h result else Step.block

/-- The test helper `waiter(result)`: `WithChannel` of `waitChan result`. -/
def waiter (result : Error) (h : Heap) : Actor × Heap :=
  WithChannel (waitChan result) h

/-- The function `func(ctx) error { <-ctx.Done(); return result }` of
`TestWithContext`. -/
def waitCtx (result : Error) (c : Context) : Func Error :=
  fun _ h => if c.done h then Step.done h result else Step.block

/-! ## `Run` (`group.go`, lines 84-107) -/

/-- One goroutine `go func(a Actor) { errors <- a.Execute() }(a)`. -/
inductive Task where
  /-- inside `a.Execute()`, at program counter `pc` -/
  | executing (pc : Nat)
  /-- `a.Execute()` returned `r`; at the send `errors <- r` -/
  | sending (r : Error)
  /-- the send is done and the goroutine has ended -/
  | finished
deriving DecidableEq, Repr

/-- Where the goroutine that called `Run` stands. -/
inductive Main where
  /-- at the entry of `Run` (line 85) -/
  | entry
  /-- at the head of the loop of line 90, about to look at `actors[i]` -/
  | spawning (i : Nat)
  /-- at `err := <-errors` (line 96) -/
  | receiving
  /-- at the head of the loop of line 98, about to look at `actors[i]` -/
  | interrupting (i : Nat) (err : Error)
  /-- inside `actors[i].Interrupt()` (line 99), at program counter `pc` -/
  | inInterrupt (i : Nat) (pc : Nat) (err : Error)
  /-- at the head of the loop of line 102 with loop variable `i` -/
  | draining (i : Nat) (err : Error)
  /-- `Run` has returned `err` -/
  | returned (err : Error)
deriving DecidableEq, Repr

/-- The state of one call of `Run`.  `sent`, `received` and `interrupted` are
history: the sends made on `errors` (task index and value), the values `Run`
has received from `errors`, and the indices of the actors whose `Interrupt`
has been called, each in order of occurrence. -/
structure State where
  heap : Heap
  main : Main
  tasks : List Task
  errors : List Error
  cap : Nat
  crashed : Bool
  sent : List (Nat × Error)
  received : List Error
  interrupted : List Nat
deriving DecidableEq, Repr

/-- The state in which `Run` is called, on heap `h`. -/
def State.init (h : Heap) : State :=
  { heap := h, main := Main.entry, tasks := [], errors := [], cap := 0,
    crashed := false, sent := [], received := [], interrupted := [] }

/-- One move of the goroutine that called `Run`; `none` when it is blocked
or has returned. -/
def stepMain (actors : List Actor) (s : State) : Option State :=
  match s.main with
  | Main.entry =>
    if actors.length = 0 then some { s with main := Main.returned none }
    else some { s with errors := [], cap := actors.length, main := Main.spawning 0 }
  | Main.spawning i =>
    if i < actors.length then
      some { s with tasks := s.tasks ++ [Task.executing 0], main := Main.spawning (i + 1) }
    else some { s with main := Main.receiving }
  | Main.receiving =>
    match s.errors with
    | [] => none
    | r :: rest =>
      some { s with errors := rest, received := s.received ++ [r],
                    main := Main.interrupting 0 r }
  | Main.interrupting i err =>
    if i < actors.length then
      some { s with interrupted := s.interrupted ++ [i], main := Main.inInterrupt i 0 err }
    else some { s with main := Main.draining 1 err }
  | Main.inInterrupt i pc err =>
    match actors[i]? with
    | none => none
    | some a =>
      match a.Interrupt pc s.heap with
      | Step.done h _ => some { s with heap := h, main := Main.interrupting (i + 1) err }
      | Step.more h pc1 => some { s with heap := h, main := Main.inInterrupt i pc1 err }
      | Step.block => none
      | Step.panic => some { s with crashed := true }
  | Main.draining i err =>
    if i < actors.length then
      match s.errors with
      | [] => none
      | r :: rest =>
        some { s with errors := rest, received := s.received ++ [r],
                      main := Main.draining (i + 1) err }
    else some { s with main := Main.returned err }
  | Main.returned _ => none

/-- One move of the goroutine spawned for `actors[i]`; `none` when it has not
been spawned, is blocked or has ended. -/
def stepTask (actors : List Actor) (s : State) (i : Nat) : Option State :=
  match actors[i]?, s.tasks[i]? with
  | some a, some (Task.executing pc) =>
    match a.Execute pc s.heap with
    | Step.done h r => some { s with heap := h, tasks := s.tasks.set i (Task.sending r) }
    | Step.more h pc1 => some { s with heap := h, tasks := s.tasks.set i (Task.executing pc1) }
    | Step.block => none
    | Step.panic => some { s with crashed := true }
  | some _, some (Task.sending r) =>
    if s.errors.length < s.cap then
      some { s with errors := s.errors ++ [r], sent := s.sent ++ [(i, r)],
                    tasks := s.tasks.set i Task.finished }
    else none
  | _, _ => none

/-- A goroutine of a call of `Run`: the caller, or the task of `actors[i]`. -/
inductive Who where
  | main
  | task (i : Nat)
deriving DecidableEq, Repr

/-- One move of the chosen goroutine.  A panic in any goroutine ends the
program: nothing moves in a crashed state. -/
def step (actors : List Actor) (s : State) (w : Who) : Option State :=
  if s.crashed then none
  else
    match w with
    | Who.main => stepMain actors s
    | Who.task i => stepTask actors s i

/-- The state after the goroutines of `sched` have moved, in that order;
`none` when one of them could not move at its turn. -/
def exec (actors : List Actor) (s : State) : List Who → Option State
  | [] => some s
  | w :: ws =>
    match step actors s w with
    | none => none
    | some s1 => exec actors s1 ws

/-- Evaluate the constructor calls `cs` from left to right on heap `h`. -/
def build : List (Heap → Actor × Heap) → Heap → List Actor × Heap
  | [], h => ([], h)
  | c :: cs, h =>
    match c h with
    | (a, h1) =>
      match build cs h1 with
      | (as, h2) => (a :: as, h2)

/-- The empty heap. -/
def Heap.empty : Heap := { chans := [], ctxs := [] }

/-! ## The invariant of `Run` -/

/-- Number of goroutines of `Run` that have ended. -/
def numFinished : List Task → Nat
  | [] => 0
  | t :: ts => (if t = Task.finished then 1 else 0) + numFinished ts

/-- What the position of the caller of `Run` says about the history. -/
def Phase (actors : List Actor) (s : State) : Prop :=
  match s.main with
  | Main.entry =>
    s.tasks.length = 0 ∧ s.received = [] ∧ s.interrupted = []
  | Main.spawning i =>
    actors ≠ [] ∧ s.cap = actors.length ∧ s.tasks.length = i ∧ i ≤ actors.length ∧
      s.received = [] ∧ s.interrupted = []
  | Main.receiving =>
    actors ≠ [] ∧ s.cap = actors.length ∧ s.tasks.length = actors.length ∧
      s.received = [] ∧ s.interrupted = []
  | Main.interrupting i err =>
    actors ≠ [] ∧ s.cap = actors.length ∧ s.tasks.length = actors.length ∧
      s.received = [err] ∧ s.interrupted = List.range i ∧ i ≤ actors.length
  | Main.inInterrupt i _ err =>
    actors ≠ [] ∧ s.cap = actors.length ∧ s.tasks.length = actors.length ∧
      s.received = [err] ∧ s.interrupted = List.range (i + 1) ∧ i < actors.length
  | Main.draining i err =>
    actors ≠ [] ∧ s.cap = actors.length ∧ s.tasks.length = actors.length ∧
      s.received.head? = some err ∧ s.received.length = i ∧
      s.interrupted = List.range actors.length ∧ 1 ≤ i ∧ i ≤ actors.length
  | Main.returned err =>
    (actors = [] ∧ err = none ∧ s.tasks.length = 0 ∧ s.received = [] ∧
        s.interrupted = []) ∨
    (actors ≠ [] ∧ s.cap = actors.length ∧ s.tasks.length = actors.length ∧
      s.received.head? = some err ∧ s.received.length = actors.length ∧
      s.interrupted = List.range actors.length)

/-- The invariant of every state a call of `Run` can reach. -/
structure Inv (actors : List Actor) (s : State) : Prop where
  tasks_le : s.tasks.length ≤ actors.length
  fifo : s.sent.map Prod.snd = s.received ++ s.errors
  sent_len : s.sent.length = numFinished s.tasks
  sent_iff : ∀ i, i ∈ s.sent.map Prod.fst ↔ s.tasks[i]? = some Task.finished
  sent_nodup : (s.sent.map Prod.fst).Nodup
  phase : Phase actors s

/-! ## Concrete runs of `Run` -/

/-- A schedule of `Run(Done(nil), Done(7))`: both tasks deposit their result,
the first one first, before `Run` receives. -/
def schedTwoDone : List Who :=
  [Who.main, Who.main, Who.main, Who.main, Who.task 0, Who.task 0, Who.task 1, Who.task 1,
   Who.main, Who.main, Who.main, Who.main, Who.main, Who.main, Who.main, Who.main]

/-- The state `schedTwoDone` ends in. -/
def endTwoDone : State :=
  { heap := Heap.empty, main := Main.returned none,
    tasks := [Task.finished, Task.finished], errors := [], cap := 2, crashed := false,
    sent := [(0, none), (1, some 7)], received := [none, some 7], interrupted := [0, 1] }

/-- A schedule of `Run(Done(nil), Done(7))` up to the point where the first
task has deposited its result and the second is at its send. -/
def schedAtSend : List Who :=
  [Who.main, Who.main, Who.main, Who.task 0, Who.task 0, Who.task 1]

/-- The state `schedAtSend` ends in. -/
def stateAtSend : State :=
  { heap := Heap.empty, main := Main.spawning 2,
    tasks := [Task.finished, Task.sending (some 7)], errors := [none], cap := 2,
    crashed := false, sent := [(0, none)], received := [], interrupted := [] }

/-- A schedule of `Run(waiter(3), Done(7), waiter(nil))` in which the tasks of
the waiters move as soon as they can. -/
def schedWaiters : List Who :=
  [Who.main, Who.main, Who.main, Who.main, Who.main, Who.task 1, Who.task 1,
   Who.main, Who.main, Who.main, Who.task 0, Who.main, Who.main, Who.main, Who.main,
   Who.task 2, Who.main, Who.task 2, Who.task 0, Who.main, Who.main, Who.main]

/-- The state `schedWaiters` ends in. -/
def endWaiters : State :=
  { heap := { chans := [true, true], ctxs := [] }, main := Main.returned (some 7),
    tasks := [Task.finished, Task.finished, Task.finished], errors := [], cap := 3,
    crashed := false, sent := [(1, some 7), (2, none), (0, some 3)],
    received := [some 7, none, some 3], interrupted := [0, 1, 2] }

/-! ## One `Done` actor among waiters -/

/-- The arguments of `Run(waiter(r1), ..., Done(E), ..., waiter(rk))`: waiters
with the results `pre`, then `Done(E)`, then waiters with the results `post`,
each constructor call evaluated in turn on the heap the previous one left. -/
def doneAmongWaiters (pre : List Error) (E : Error) (post : List Error) (h : Heap) :
    List Actor × Heap :=
  build (pre.map waiter ++ (fun h1 => (Done E, h1)) :: post.map waiter) h

/-- The actor `WithChannel` returns for `waitChan r` when `make` yields `c`. -/
def waiterAt (r : Error) (c : Chan) : Actor :=
  New (waitChan r c) (closeChan c)

/-- The actors `waiter(r)` for `r` in `rs`, on the channels `base, base+1, ...`. -/
def waitersFrom (base : Nat) : List Error → List Actor
  | [] => []
  | r :: rs => waiterAt r base :: waitersFrom (base + 1) rs

/-- The stop channel of the waiter at position `i` of a group whose `Done`
actor stands at position `d`, when the first channel made is `base`. -/
def chanAt (base d i : Nat) : Nat :=
  if i < d then base + i else base + i - 1

/-- A group with `Done(E)` at position `d` and, at every other position `i`,
a waiter on the channel `ch i`, no two waiters on the same channel. -/
structure Layout (actors : List Actor) (d : Nat) (E : Error) (ch : Nat → Chan) : Prop where
  d_lt : d < actors.length
  done_at : actors[d]? = some (Done E)
  waiter_at : ∀ i, i < actors.length → i ≠ d → ∃ r, actors[i]? = some (waiterAt r (ch i))
  inj : ∀ i j, i < actors.length → j < actors.length → i ≠ d → j ≠ d → ch i = ch j → i = j

/-- Which stop channels are closed, by the position of the caller of `Run`. -/
def ChanPhase (actors : List Actor) (d : Nat) (E : Error) (ch : Nat → Chan) (s : State) :
    Prop :=
  match s.main with
  | Main.entry => ∀ i, i < actors.length → i ≠ d → s.heap.isClosed (ch i) = false
  | Main.spawning _ => ∀ i, i < actors.length → i ≠ d → s.heap.isClosed (ch i) = false
  | Main.receiving => ∀ i, i < actors.length → i ≠ d → s.heap.isClosed (ch i) = false
  | Main.interrupting k err =>
    err = E ∧ ∀ i, i < actors.length → i ≠ d → (s.heap.isClosed (ch i) = true ↔ i < k)
  | Main.inInterrupt k pc err =>
    err = E ∧ pc = 0 ∧
      ∀ i, i < actors.length → i ≠ d → (s.heap.isClosed (ch i) = true ↔ i < k)
  | Main.draining _ err =>
    err = E ∧ ∀ i, i < actors.length → i ≠ d → s.heap.isClosed (ch i) = true
  | Main.returned err =>
    err = E ∧ ∀ i, i < actors.length → i ≠ d → s.heap.isClosed (ch i) = true

/-- The invariant of `Run` on a group of one `Done(E)` actor and waiters. -/
structure WInv (actors : List Actor) (d : Nat) (E : Error) (ch : Nat → Chan) (s : State) :
    Prop where
  alive : s.crashed = false
  alloc : ∀ i, i < actors.length → i ≠ d → ch i < s.heap.chans.length
  waiterTask : ∀ i t, i ≠ d → s.tasks[i]? = some t →
    t = Task.executing 0 ∨
      (s.heap.isClosed (ch i) = true ∧ ((∃ r, t = Task.sending r) ∨ t = Task.finished))
  doneTask : ∀ t, s.tasks[d]? = some t →
    t = Task.executing 0 ∨ t = Task.sending E ∨ t = Task.finished
  sentDone : ∀ p, p ∈ s.sent → p.1 = d → p.2 = E
  chans : ChanPhase actors d E ch s

/-- Moves a task still has to make when its `Execute` returns in one move. -/
def taskCost : Task → Nat
  | Task.executing _ => 2
  | Task.sending _ => 1
  | Task.finished => 0

/-- Moves the spawned tasks still have to make. -/
def tasksCost : List Task → Nat
  | [] => 0
  | t :: ts => taskCost t + tasksCost ts

/-- Moves the caller of `Run` still has to make on a group of `n` actors whose
`Interrupt` returns in one move. -/
def mainCost (n : Nat) : Main → Nat
  | Main.entry => 4 * n + 4
  | Main.spawning i => 4 * n + 3 - i
  | Main.receiving => 3 * n + 2
  | Main.interrupting i _ => 3 * n + 1 - 2 * i
  | Main.inInterrupt i _ _ => 3 * n - 2 * i
  | Main.draining i _ => n + 1 - i
  | Main.returned _ => 0

/-- Moves left in a call of `Run` on `n` such actors: those of the caller, of
the spawned tasks, and two for each task not yet spawned. -/
def cost (n : Nat) (s : State) : Nat :=
  mainCost n s.main + tasksCost s.tasks + 2 * (n - s.tasks.length)

/-! ## What happened along a schedule -/

/-- Along `sched`, from the call of `Run` on heap `h`, the task of `actors[i]`
made a move at which `actors[i].Execute` returned `r`: the moves before it
lead to a state where the task is inside `Execute` at some `pc`, and
`Execute` at that `pc` and heap is `Step.done` with value `r`. -/
def ExecuteReturned (actors : List Actor) (h : Heap) (sched : List Who) (i : Nat)
    (r : Error) : Prop :=
  ∃ (before after : List Who) (s0 : State) (pc : Nat) (a : Actor) (h1 : Heap),
    sched = before ++ Who.task i :: after ∧
    exec actors (State.init h) before = some s0 ∧
    s0.tasks[i]? = some (Task.executing pc) ∧
    actors[i]? = some a ∧
    a.Execute pc s0.heap = Step.done h1 r

/-- Whether the move of `w` in state `s` stays inside an actor function: the
`Execute` or `Interrupt` under way advances without returning. -/
def isInner (actors : List Actor) (s : State) : Who → Bool
  | Who.main =>
    match s.main with
    | Main.inInterrupt i pc _ =>
      match actors[i]? with
      | some a =>
        match a.Interrupt pc s.heap with
        | Step.more _ _ => true
        | _ => false
      | none => false
    | _ => false
  | Who.task i =>
    match actors[i]?, s.tasks[i]? with
    | some a, some (Task.executing pc) =>
      match a.Execute pc s.heap with
      | Step.more _ _ => true
      | _ => false
    | _, _ => false

/-- Number of moves of `sched`, run from `s`, that do not stay inside an actor
function. -/
def ownMoves (actors : List Actor) : State → List Who → Nat
  | _, [] => 0
  | s, w :: ws =>
    match step actors s w with
    | none => 0
    | some s1 => (if isInner actors s w then 0 else 1) + ownMoves actors s1 ws

/-- Along `sched`, from the call of `Run` on heap `h`, the caller of `Run` made
a move at which `actors[i].Interrupt` returned: the moves before it lead to a
state where `Run` is inside `actors[i].Interrupt` at some `pc`, after the first
result `err` has been received, and `Interrupt` at that `pc` and heap is
`Step.done`. -/
def InterruptReturned (actors : List Actor) (h : Heap) (sched : List Who) (i : Nat) : Prop :=
  ∃ (before after : List Who) (s0 : State) (pc : Nat) (err : Error) (a : Actor) (h1 : Heap),
    sched = before ++ Who.main :: after ∧
    exec actors (State.init h) before = some s0 ∧
    s0.main = Main.inInterrupt i pc err ∧
    s0.received = [err] ∧
    actors[i]? = some a ∧
    a.Interrupt pc s0.heap = Step.done h1 ()

/-- Number of actors whose `Interrupt` has returned when the caller of `Run`
stands at `m`, in a group of `n` actors. -/
def interruptsDone (n : Nat) : Main → Nat
  | Main.entry => 0
  | Main.spawning _ => 0
  | Main.receiving => 0
  | Main.interrupting i _ => i
  | Main.inInterrupt i _ _ => i
  | Main.draining _ _ => n
  | Main.returned _ => n

/-! ## Lemmas: the invariant holds in every reachable state -/

theorem numFinished_le (l : List Task) : numFinished l ≤ l.length := by
  induction l with
  | nil => simp [numFinished]
  | cons t ts ih => simp only [numFinished, List.length_cons]; split <;> omega

theorem numFinished_append (l : List Task) (t : Task) :
    numFinished (l ++ [t]) = numFinished l + (if t = Task.finished then 1 else 0) := by
  induction l with
  | nil => simp [numFinished]
  | cons x xs ih => rw [List.cons_append]; simp only [numFinished, ih]; omega

theorem numFinished_set (l : List Task) (i : Nat) (t u : Task) (h : l[i]? = some t) :
    numFinished (l.set i u) + (if t = Task.finished then 1 else 0) =
      numFinished l + (if u = Task.finished then 1 else 0) := by
  induction l generalizing i with
  | nil => simp at h
  | cons x xs ih =>
    cases i with
    | zero =>
      simp only [List.getElem?_cons_zero, Option.some.injEq] at h
      subst h
      simp only [List.set_cons_zero, numFinished]; omega
    | succ j =>
      simp only [List.getElem?_cons_succ] at h
      have := ih j h
      simp only [List.set_cons_succ, numFinished]; omega

theorem numFinished_lt (l : List Task) (i : Nat) (t : Task) (h : l[i]? = some t)
    (ht : t ≠ Task.finished) : numFinished l < l.length := by
  induction l generalizing i with
  | nil => simp at h
  | cons x xs ih =>
    cases i with
    | zero =>
      simp only [List.getElem?_cons_zero, Option.some.injEq] at h
      subst h
      have := numFinished_le xs
      simp only [numFinished, List.length_cons, if_neg ht]; omega
    | succ j =>
      simp only [List.getElem?_cons_succ] at h
      have := ih j h
      simp only [numFinished, List.length_cons]; split <;> omega

theorem numFinished_all (l : List Task) (h : numFinished l = l.length) :
    ∀ t ∈ l, t = Task.finished := by
  induction l with
  | nil => simp
  | cons x xs ih =>
    have hle := numFinished_le xs
    simp only [numFinished, List.length_cons] at h
    intro t ht
    by_cases hx : x = Task.finished
    · simp only [hx, if_true] at h
      rcases List.mem_cons.mp ht with rfl | hm
      · exact hx
      · exact ih (by omega) t hm
    · simp only [if_neg hx] at h; omega

theorem inv_init (actors : List Actor) (h : Heap) : Inv actors (State.init h) := by
  constructor <;> simp [State.init, numFinished, Phase]

theorem finished_append_iff (l : List Task) (j : Nat) :
    (l ++ [Task.executing 0])[j]? = some Task.finished ↔ l[j]? = some Task.finished := by
  rw [List.getElem?_append]
  split
  · rfl
  · rename_i hj
    have : l[j]? = none := List.getElem?_eq_none (by omega)
    rw [this]
    cases hk : j - l.length with
    | zero => simp
    | succ k => simp

theorem inv_stepMain (actors : List Actor) (s s1 : State) (hinv : Inv actors s)
    (h : stepMain actors s = some s1) : Inv actors s1 := by
  obtain ⟨heap, main, tasks, errors, cap, crashed, sent, received, interrupted⟩ := s
  obtain ⟨h1, h2, h3, h4, h5, h6⟩ := hinv
  simp only at h1 h2 h3 h4 h5
  cases main with
  | entry =>
    simp only [Phase] at h6
    obtain ⟨h6a, rfl, rfl⟩ := h6
    simp only [stepMain] at h
    split at h
    · cases h
      rename_i h0
      have : actors = [] := List.length_eq_zero.mp h0
      subst this
      constructor <;> simp_all [Phase, numFinished]
    · cases h
      rename_i h0
      have : actors ≠ [] := fun hh => h0 (by simp [hh])
      have ht : tasks = [] := List.length_eq_zero.mp h6a
      subst ht
      simp only [numFinished, List.length_eq_zero] at h3
      subst h3
      constructor <;> simp_all [Phase, numFinished]
  | spawning i =>
    simp only [Phase] at h6
    obtain ⟨h6a, h6b, h6c, h6d, rfl, rfl⟩ := h6
    simp only [stepMain] at h
    split at h
    · cases h
      refine ⟨by simp; omega, h2, ?_, ?_, h5, ?_⟩
      · simp only [numFinished_append]; simpa using h3
      · intro j; simp only [finished_append_iff]; exact h4 j
      · simp only [Phase, List.length_append, List.length_singleton]
        exact ⟨h6a, h6b, by omega, by omega, trivial, trivial⟩
    · cases h
      refine ⟨h1, h2, h3, h4, h5, ?_⟩
      simp only [Phase]
      exact ⟨h6a, h6b, by omega, trivial, trivial⟩
  | receiving =>
    simp only [Phase] at h6
    obtain ⟨h6a, h6b, h6c, rfl, rfl⟩ := h6
    simp only [stepMain] at h
    split at h
    · cases h
    · cases h
      rename_i r rest
      refine ⟨h1, by simpa using h2, h3, h4, h5, ?_⟩
      simp only [Phase]
      exact ⟨h6a, h6b, h6c, by simp, by simp, by omega⟩
  | interrupting i err =>
    simp only [Phase] at h6
    obtain ⟨h6a, h6b, h6c, h6d, h6e, h6f⟩ := h6
    simp only [stepMain] at h
    split at h
    · cases h
      refine ⟨h1, h2, h3, h4, h5, ?_⟩
      simp only [Phase]
      exact ⟨h6a, h6b, h6c, h6d, by rw [h6e, List.range_succ], by omega⟩
    · cases h
      refine ⟨h1, h2, h3, h4, h5, ?_⟩
      have hn : 0 < actors.length := List.length_pos.mpr h6a
      have hi : i = actors.length := by omega
      simp only [Phase]
      exact ⟨h6a, h6b, h6c, by simp [h6d], by simp [h6d], by rw [h6e, hi], by omega, by omega⟩
  | inInterrupt i pc err =>
    simp only [Phase] at h6
    obtain ⟨h6a, h6b, h6c, h6d, h6e, h6f⟩ := h6
    simp only [stepMain] at h
    split at h
    · cases h
    · split at h
      · cases h
        refine ⟨h1, h2, h3, h4, h5, ?_⟩
        simp only [Phase]
        exact ⟨h6a, h6b, h6c, h6d, h6e, by omega⟩
      · cases h
        refine ⟨h1, h2, h3, h4, h5, ?_⟩
        simp only [Phase]
        exact ⟨h6a, h6b, h6c, h6d, h6e, by omega⟩
      · cases h
      · cases h
        refine ⟨h1, h2, h3, h4, h5, ?_⟩
        simp only [Phase]
        exact ⟨h6a, h6b, h6c, h6d, h6e, by omega⟩
  | draining i err =>
    simp only [Phase] at h6
    obtain ⟨h6a, h6b, h6c, h6d, h6e, h6f, h6g, h6h⟩ := h6
    simp only [stepMain] at h
    split at h
    · split at h
      · cases h
      · cases h
        refine ⟨h1, by simpa using h2, h3, h4, h5, ?_⟩
        simp only [Phase]
        refine ⟨h6a, h6b, h6c, ?_, by simp [h6e], h6f, by omega, by omega⟩
        cases received with
        | nil => simp at h6d
        | cons x xs => simpa using h6d
    · cases h
      refine ⟨h1, h2, h3, h4, h5, ?_⟩
      simp only [Phase]
      exact Or.inr ⟨h6a, h6b, h6c, h6d, by omega, h6f⟩
  | returned err => simp [stepMain] at h

theorem phase_task (actors : List Actor) (s s1 : State) (hp : Phase actors s)
    (hm : s1.main = s.main) (hc : s1.cap = s.cap) (hl : s1.tasks.length = s.tasks.length)
    (hr : s1.received = s.received) (hi : s1.interrupted = s.interrupted) :
    Phase actors s1 := by
  obtain ⟨heap, main, tasks, errors, cap, crashed, sent, received, interrupted⟩ := s
  obtain ⟨heap1, main1, tasks1, errors1, cap1, crashed1, sent1, received1, interrupted1⟩ := s1
  simp only at hm hc hl hr hi
  subst hm hc hr hi
  cases main1 <;> simp only [Phase, hl] at hp ⊢ <;> exact hp

theorem inv_stepTask (actors : List Actor) (s s1 : State) (i : Nat) (hinv : Inv actors s)
    (h : stepTask actors s i = some s1) : Inv actors s1 := by
  obtain ⟨h1, h2, h3, h4, h5, h6⟩ := hinv
  simp only [stepTask] at h
  split at h
  · rename_i a pc ha ht
    split at h
    · cases h
      refine ⟨by simpa using h1, h2, ?_, ?_, h5, phase_task actors s _ h6 rfl rfl (by simp) rfl rfl⟩
      · have := numFinished_set s.tasks i _ (Task.sending ‹_›) ht
        simp only [reduceCtorEq, if_false, Nat.add_zero] at this
        simp only [this]; exact h3
      · intro j
        rw [h4 j, List.getElem?_set]
        by_cases hij : i = j
        · subst hij; simp [ht]
        · simp [hij]
    · cases h
      refine ⟨by simpa using h1, h2, ?_, ?_, h5, phase_task actors s _ h6 rfl rfl (by simp) rfl rfl⟩
      · have := numFinished_set s.tasks i _ (Task.executing ‹_›) ht
        simp only [reduceCtorEq, if_false, Nat.add_zero] at this
        simp only [this]; exact h3
      · intro j
        rw [h4 j, List.getElem?_set]
        by_cases hij : i = j
        · subst hij; simp [ht]
        · simp [hij]
    · cases h
    · cases h
      exact ⟨h1, h2, h3, h4, h5, h6⟩
  · rename_i a r ha ht
    split at h
    · cases h
      have hlt : i < s.tasks.length := by
        by_contra hc
        rw [List.getElem?_eq_none (by omega)] at ht
        cases ht
      have hni : i ∉ s.sent.map Prod.fst := by
        rw [h4 i, ht]; simp
      refine ⟨by simpa using h1, ?_, ?_, ?_, ?_, phase_task actors s _ h6 rfl rfl (by simp) rfl rfl⟩
      · simp only [List.map_append, h2, List.map_cons, List.map_nil, List.append_assoc]
      · have := numFinished_set s.tasks i _ Task.finished ht
        simp only [reduceCtorEq, if_false, Nat.add_zero, if_true] at this
        simp only [List.length_append, List.length_singleton, this, h3]
      · intro j
        simp only [List.map_append, List.map_cons, List.map_nil, List.mem_append,
          List.mem_singleton]
        rw [h4 j, List.getElem?_set]
        by_cases hij : i = j
        · subst hij; simp [hlt]
        · simp [hij]; exact fun hh => absurd hh.symm hij
      · simp only [List.map_append, List.map_cons, List.map_nil]
        exact List.Nodup.append h5 (by simp) (by simpa using hni)
    · cases h
  · cases h

theorem inv_step (actors : List Actor) (s s1 : State) (w : Who) (hinv : Inv actors s)
    (h : step actors s w = some s1) : Inv actors s1 := by
  simp only [step] at h
  split at h
  · cases h
  · cases w with
    | main => exact inv_stepMain actors s s1 hinv h
    | task i => exact inv_stepTask actors s s1 i hinv h

theorem inv_exec (actors : List Actor) (sched : List Who) (s s1 : State)
    (hinv : Inv actors s) (h : exec actors s sched = some s1) : Inv actors s1 := by
  induction sched generalizing s with
  | nil => simp only [exec, Option.some.injEq] at h; subst h; exact hinv
  | cons w ws ih =>
    simp only [exec] at h
    split at h
    · cases h
    · rename_i s2 hs
      exact ih s2 (inv_step actors s s2 w hinv hs) h

theorem inv_reach (actors : List Actor) (h : Heap) (sched : List Who) (s : State)
    (hs : exec actors (State.init h) sched = some s) : Inv actors s :=
  inv_exec actors sched _ s (inv_init actors h) hs

theorem cap_of_tasks (actors : List Actor) (s : State) (hinv : Inv actors s)
    (ht : 0 < s.tasks.length) : s.cap = actors.length := by
  have hp := hinv.phase
  unfold Phase at hp
  split at hp
  · omega
  · exact hp.2.1
  · exact hp.2.1
  · exact hp.2.1
  · exact hp.2.1
  · exact hp.2.1
  · rcases hp with hp | hp
    · omega
    · exact hp.2.1

theorem errors_le_sent (actors : List Actor) (s : State) (hinv : Inv actors s) :
    s.received.length + s.errors.length = numFinished s.tasks := by
  have := congrArg List.length hinv.fifo
  simp only [List.length_map, List.length_append] at this
  rw [← hinv.sent_len]; omega

theorem getD_set_true (l : List Bool) (i : Nat) (hi : i < l.length) :
    (l.set i true).getD i false = true := by
  simp [List.getD_eq_getElem?_getD, List.getElem?_set, hi]

/-! ## Lemmas: one `Done` actor among waiters -/

theorem lt_of_getElem?_eq_some {α : Type} (l : List α) (i : Nat) (t : α)
    (h : l[i]? = some t) : i < l.length := by
  by_contra hc
  rw [List.getElem?_eq_none (by omega)] at h
  cases h

theorem isClosed_close_same (h : Heap) (c : Nat) (hc : c < h.chans.length) :
    (h.close c).isClosed c = true := by
  simp only [Heap.close, Heap.isClosed]
  exact getD_set_true _ _ hc

theorem isClosed_close_ne (h : Heap) (c c1 : Nat) (hne : c ≠ c1) :
    (h.close c).isClosed c1 = h.isClosed c1 := by
  simp [Heap.close, Heap.isClosed, List.getD_eq_getElem?_getD, List.getElem?_set, hne]

theorem isClosed_close_mono (h : Heap) (c c1 : Nat) (hcl : h.isClosed c1 = true) :
    (h.close c).isClosed c1 = true := by
  by_cases hne : c = c1
  · subst hne
    by_cases hc : c < h.chans.length
    · exact isClosed_close_same h c hc
    · have hlen : h.chans.length ≤ c := by omega
      simp only [Heap.isClosed, List.getD_eq_getElem?_getD] at hcl
      rw [List.getElem?_eq_none hlen] at hcl
      simp at hcl
  · rw [isClosed_close_ne h c c1 hne]; exact hcl

theorem close_length (h : Heap) (c : Nat) : (h.close c).chans.length = h.chans.length := by
  simp [Heap.close]

theorem getElem?_append_executing (l : List Task) (j : Nat) (t : Task)
    (h : (l ++ [Task.executing 0])[j]? = some t) : l[j]? = some t ∨ t = Task.executing 0 := by
  rw [List.getElem?_append] at h
  split at h
  · exact Or.inl h
  · cases hk : j - l.length with
    | zero => rw [hk] at h; simp at h; exact Or.inr h.symm
    | succ k => rw [hk] at h; simp at h

theorem getElem?_set_some (l : List Task) (i j : Nat) (t u : Task)
    (h : (l.set i u)[j]? = some t) : (i = j ∧ t = u) ∨ (i ≠ j ∧ l[j]? = some t) := by
  rw [List.getElem?_set] at h
  split at h
  · split at h
    · simp only [Option.some.injEq] at h; exact Or.inl ⟨‹_›, h.symm⟩
    · cases h
  · exact Or.inr ⟨‹_›, h⟩

theorem winv_init (actors : List Actor) (d : Nat) (E : Error) (ch : Nat → Chan) (h : Heap)
    (hfresh : ∀ i, i < actors.length → i ≠ d →
      ch i < h.chans.length ∧ h.isClosed (ch i) = false) :
    WInv actors d E ch (State.init h) := by
  refine ⟨rfl, fun i hi hd => (hfresh i hi hd).1, ?_, ?_, ?_, ?_⟩
  · intro i t _ ht; simp [State.init] at ht
  · intro t ht; simp [State.init] at ht
  · intro p hp; simp [State.init] at hp
  · simp only [ChanPhase, State.init]
    exact fun i hi hd => (hfresh i hi hd).2

theorem winv_stepMain (actors : List Actor) (d : Nat) (E : Error) (ch : Nat → Chan)
    (hl : Layout actors d E ch) (s s1 : State) (hinv : Inv actors s)
    (hw : WInv actors d E ch s) (h : stepMain actors s = some s1) :
    WInv actors d E ch s1 := by
  obtain ⟨heap, main, tasks, errors, cap, crashed, sent, received, interrupted⟩ := s
  obtain ⟨w1, w2, w3, w4, w5, w6⟩ := hw
  have hp := hinv.phase
  simp only at w1 w2 w3 w4 w5
  cases main with
  | entry =>
    simp only [stepMain] at h
    split at h <;> cases h <;> refine ⟨w1, w2, w3, w4, w5, ?_⟩
    · rename_i h0
      have := hl.d_lt
      omega
    · simpa [ChanPhase] using w6
  | spawning i =>
    simp only [stepMain] at h
    split at h <;> cases h
    · refine ⟨w1, w2, ?_, ?_, w5, ?_⟩
      · intro j t hj ht
        rcases getElem?_append_executing _ _ _ ht with ht | ht
        · exact w3 j t hj ht
        · exact Or.inl ht
      · intro t ht
        rcases getElem?_append_executing _ _ _ ht with ht | ht
        · exact w4 t ht
        · exact Or.inl ht
      · simpa [ChanPhase] using w6
    · refine ⟨w1, w2, w3, w4, w5, ?_⟩
      simpa [ChanPhase] using w6
  | receiving =>
    simp only [stepMain] at h
    split at h <;> cases h
    rename_i r rest
    refine ⟨w1, w2, w3, w4, w5, ?_⟩
    simp only [ChanPhase] at w6 ⊢
    simp only [Phase] at hp
    obtain ⟨_, _, hlen, hrec, _⟩ := hp
    subst hrec
    have hf := hinv.fifo
    simp only [List.nil_append] at hf
    refine ⟨?_, ?_⟩
    · cases hsent : sent with
      | nil => rw [hsent] at hf; simp at hf
      | cons p ps =>
        rw [hsent] at hf
        simp only [List.map_cons, List.cons.injEq] at hf
        have hmem : p ∈ sent := by rw [hsent]; simp
        have hfin := (hinv.sent_iff p.1).mp (List.mem_map_of_mem Prod.fst hmem)
        by_cases hpd : p.1 = d
        · rw [← hf.1]; exact w5 p hmem hpd
        · have hlt : p.1 < tasks.length := lt_of_getElem?_eq_some _ _ _ hfin
          rcases w3 p.1 _ hpd hfin with hc | hc
          · cases hc
          · have := w6 p.1 (by omega) hpd
            rw [this] at hc
            simp at hc
    · intro i hi hd
      rw [w6 i hi hd]; simp
  | interrupting k err =>
    simp only [stepMain] at h
    simp only [ChanPhase] at w6
    split at h <;> cases h <;> refine ⟨w1, w2, w3, w4, w5, ?_⟩
    · simp only [ChanPhase]; exact ⟨w6.1, trivial, w6.2⟩
    · simp only [ChanPhase]
      refine ⟨w6.1, fun i hi hd => (w6.2 i hi hd).mpr (by omega)⟩
  | inInterrupt k pc err =>
    simp only [ChanPhase] at w6
    obtain ⟨rfl, rfl, w6⟩ := w6
    simp only [Phase] at hp
    have hk : k < actors.length := hp.2.2.2.2.2
    by_cases hkd : k = d
    · subst hkd
      simp only [stepMain, hl.done_at] at h
      cases h
      refine ⟨w1, w2, w3, w4, w5, ?_⟩
      simp only [ChanPhase]
      refine ⟨trivial, fun i hi hd => ?_⟩
      rw [w6 i hi hd]; omega
    · obtain ⟨r, hr⟩ := hl.waiter_at k hk hkd
      have hopen : heap.isClosed (ch k) = false := by
        have := w6 k hk hkd
        cases hc : heap.isClosed (ch k) with
        | false => rfl
        | true => rw [hc] at this; simp at this
      simp only [stepMain, hr, waiterAt, New, Actor.Interrupt, closeChan, hopen] at h
      cases h
      refine ⟨w1, ?_, ?_, w4, w5, ?_⟩
      · intro i hi hd; rw [close_length]; exact w2 i hi hd
      · intro i t hi ht
        rcases w3 i t hi ht with hc | hc
        · exact Or.inl hc
        · exact Or.inr ⟨isClosed_close_mono _ _ _ hc.1, hc.2⟩
      · simp only [ChanPhase]
        refine ⟨trivial, fun i hi hd => ?_⟩
        by_cases hik : i = k
        · subst hik
          simp [isClosed_close_same _ _ (w2 i hi hd)]
        · have hne : ch k ≠ ch i := fun hh => hik (hl.inj k i hk hi hkd hd hh).symm
          rw [isClosed_close_ne _ _ _ hne, w6 i hi hd]; omega
  | draining i err =>
    simp only [stepMain] at h
    simp only [ChanPhase] at w6
    split at h
    · split at h <;> cases h
      refine ⟨w1, w2, w3, w4, w5, ?_⟩
      simpa [ChanPhase] using w6
    · cases h
      refine ⟨w1, w2, w3, w4, w5, ?_⟩
      simpa [ChanPhase] using w6
  | returned err => simp [stepMain] at h

theorem chanPhase_task (actors : List Actor) (d : Nat) (E : Error) (ch : Nat → Chan)
    (s s1 : State) (hp : ChanPhase actors d E ch s) (hm : s1.main = s.main)
    (hh : s1.heap = s.heap) : ChanPhase actors d E ch s1 := by
  obtain ⟨heap, main, tasks, errors, cap, crashed, sent, received, interrupted⟩ := s
  obtain ⟨heap1, main1, tasks1, errors1, cap1, crashed1, sent1, received1, interrupted1⟩ := s1
  simp only at hm hh
  subst hm hh
  exact hp

theorem winv_stepTask (actors : List Actor) (d : Nat) (E : Error) (ch : Nat → Chan)
    (hl : Layout actors d E ch) (s s1 : State) (i : Nat)
    (hw : WInv actors d E ch s) (h : stepTask actors s i = some s1) :
    WInv actors d E ch s1 := by
  obtain ⟨w1, w2, w3, w4, w5, w6⟩ := hw
  simp only [stepTask] at h
  split at h
  · rename_i a pc ha ht
    have hia := lt_of_getElem?_eq_some _ _ _ ha
    by_cases hid : i = d
    · subst hid
      rw [hl.done_at] at ha
      cases ha
      simp only [Done, New, Actor.Execute] at h
      cases h
      refine ⟨w1, w2, ?_, ?_, w5, chanPhase_task actors i E ch s _ w6 rfl rfl⟩
      · intro j t hj hjt
        rcases getElem?_set_some _ _ _ _ _ hjt with hh | hh
        · exact absurd hh.1.symm hj
        · exact w3 j t hj hh.2
      · intro t hjt
        rcases getElem?_set_some _ _ _ _ _ hjt with hh | hh
        · exact Or.inr (Or.inl hh.2)
        · exact absurd rfl hh.1
    · obtain ⟨r, hr⟩ := hl.waiter_at i hia hid
      rw [hr] at ha
      cases ha
      cases hcl : s.heap.isClosed (ch i) with
      | false => simp [waiterAt, New, Actor.Execute, waitChan, hcl] at h
      | true =>
        simp only [waiterAt, New, Actor.Execute, waitChan, hcl, if_true] at h
        cases h
        refine ⟨w1, w2, ?_, ?_, w5, chanPhase_task actors d E ch s _ w6 rfl rfl⟩
        · intro j t hj hjt
          rcases getElem?_set_some _ _ _ _ _ hjt with hh | hh
          · obtain ⟨rfl, rfl⟩ := hh
            exact Or.inr ⟨hcl, Or.inl ⟨r, rfl⟩⟩
          · exact w3 j t hj hh.2
        · intro t hjt
          rcases getElem?_set_some _ _ _ _ _ hjt with hh | hh
          · exact absurd hh.1 hid
          · exact w4 t hh.2
  · rename_i a r ha ht
    split at h
    · cases h
      refine ⟨w1, w2, ?_, ?_, ?_, chanPhase_task actors d E ch s _ w6 rfl rfl⟩
      · intro j t hj hjt
        rcases getElem?_set_some _ _ _ _ _ hjt with hh | hh
        · obtain ⟨rfl, rfl⟩ := hh
          rcases w3 i _ hj ht with hc | hc
          · cases hc
          · exact Or.inr ⟨hc.1, Or.inr rfl⟩
        · exact w3 j t hj hh.2
      · intro t hjt
        rcases getElem?_set_some _ _ _ _ _ hjt with hh | hh
        · exact Or.inr (Or.inr hh.2)
        · exact w4 t hh.2
      · intro p hp hpd
        rcases List.mem_append.mp hp with hp | hp
        · exact w5 p hp hpd
        · simp only [List.mem_singleton] at hp
          subst hp
          simp only at hpd
          subst hpd
          rcases w4 _ ht with hc | hc | hc
          · cases hc
          · cases hc; rfl
          · cases hc
    · cases h
  · cases h

theorem winv_step (actors : List Actor) (d : Nat) (E : Error) (ch : Nat → Chan)
    (hl : Layout actors d E ch) (s s1 : State) (w : Who) (hinv : Inv actors s)
    (hw : WInv actors d E ch s) (h : step actors s w = some s1) :
    WInv actors d E ch s1 := by
  simp only [step] at h
  split at h
  · cases h
  · cases w with
    | main => exact winv_stepMain actors d E ch hl s s1 hinv hw h
    | task i => exact winv_stepTask actors d E ch hl s s1 i hw h

theorem winv_exec (actors : List Actor) (d : Nat) (E : Error) (ch : Nat → Chan)
    (hl : Layout actors d E ch) (sched : List Who) (s s1 : State) (hinv : Inv actors s)
    (hw : WInv actors d E ch s) (h : exec actors s sched = some s1) :
    WInv actors d E ch s1 := by
  induction sched generalizing s with
  | nil => simp only [exec, Option.some.injEq] at h; subst h; exact hw
  | cons w ws ih =>
    simp only [exec] at h
    split at h
    · cases h
    · rename_i s2 hs
      exact ih s2 (inv_step actors s s2 w hinv hs) (winv_step actors d E ch hl s s2 w hinv hw hs) h

theorem exists_unfinished (l : List Task) (h : numFinished l < l.length) :
    ∃ (j : Nat) (t : Task), l[j]? = some t ∧ t ≠ Task.finished := by
  induction l with
  | nil => simp [numFinished] at h
  | cons x xs ih =>
    by_cases hx : x = Task.finished
    · simp only [numFinished, hx, if_true, List.length_cons] at h
      obtain ⟨j, t, hj, ht⟩ := ih (by omega)
      exact ⟨j + 1, t, by simpa using hj, ht⟩
    · exact ⟨0, x, by simp, hx⟩

theorem task_can_move (actors : List Actor) (d : Nat) (E : Error) (ch : Nat → Chan)
    (hl : Layout actors d E ch) (s : State) (hinv : Inv actors s)
    (hw : WInv actors d E ch s) (j : Nat) (t : Task) (ht : s.tasks[j]? = some t)
    (hnf : t ≠ Task.finished) (hclosed : j ≠ d → s.heap.isClosed (ch j) = true)
    (hroom : s.errors.length < s.cap) : ∃ s1, step actors s (Who.task j) = some s1 := by
  have hjt := lt_of_getElem?_eq_some _ _ _ ht
  have hja : j < actors.length := by have := hinv.tasks_le; omega
  by_cases hjd : j = d
  · subst hjd
    rcases hw.doneTask t ht with rfl | rfl | rfl
    · simp [step, hw.alive, stepTask, ht, hl.done_at, Done, New, Actor.Execute]
    · simp [step, hw.alive, stepTask, ht, hl.done_at, hroom]
    · exact absurd rfl hnf
  · obtain ⟨r, hr⟩ := hl.waiter_at j hja hjd
    rcases hw.waiterTask j t hjd ht with rfl | ⟨_, ⟨r2, rfl⟩ | rfl⟩
    · simp [step, hw.alive, stepTask, ht, hr, waiterAt, New, Actor.Execute, waitChan,
        hclosed hjd]
    · simp [step, hw.alive, stepTask, ht, hr, hroom]
    · exact absurd rfl hnf

theorem winv_progress (actors : List Actor) (d : Nat) (E : Error) (ch : Nat → Chan)
    (hl : Layout actors d E ch) (s : State) (hinv : Inv actors s)
    (hw : WInv actors d E ch s) :
    s.main = Main.returned E ∨ ∃ w s1, step actors s w = some s1 := by
  have hp := hinv.phase
  have hc := hw.chans
  have hsum := errors_le_sent actors s hinv
  have hd := hl.d_lt
  cases hm : s.main with
  | entry =>
    refine Or.inr ⟨Who.main, ?_⟩
    simp only [step, hw.alive, stepMain, hm]
    simp only [Bool.false_eq_true, if_false]
    split <;> exact ⟨_, rfl⟩
  | spawning i =>
    refine Or.inr ⟨Who.main, ?_⟩
    simp only [step, hw.alive, stepMain, hm]
    simp only [Bool.false_eq_true, if_false]
    split <;> exact ⟨_, rfl⟩
  | receiving =>
    simp only [Phase, hm] at hp
    obtain ⟨_, hcap, hlen, hrec, _⟩ := hp
    simp only [ChanPhase, hm] at hc
    cases he : s.errors with
    | cons r rest =>
      refine Or.inr ⟨Who.main, ?_⟩
      simp only [step, hw.alive, stepMain, hm, he]
      simp only [Bool.false_eq_true, if_false]
      exact ⟨_, rfl⟩
    | nil =>
      rw [hrec, he] at hsum
      simp only [List.length_nil, Nat.add_zero] at hsum
      have hdt : d < s.tasks.length := by omega
      obtain ⟨s1, hs1⟩ := task_can_move actors d E ch hl s hinv hw d s.tasks[d]
        (List.getElem?_eq_getElem hdt)
        (by
          intro hfin
          have := numFinished_lt s.tasks d _ (List.getElem?_eq_getElem hdt)
          have hpos : 0 < numFinished s.tasks := by
            have hmem := (hinv.sent_iff d).mpr (by rw [List.getElem?_eq_getElem hdt, hfin])
            have hlen2 := hinv.sent_len
            cases hsn : s.sent with
            | nil => rw [hsn] at hmem; simp at hmem
            | cons p ps => rw [hsn] at hlen2; simp at hlen2; omega
          omega)
        (fun hh => absurd rfl hh) (by rw [he, hcap]; simp; omega)
      exact Or.inr ⟨Who.task d, s1, hs1⟩
  | interrupting i err =>
    refine Or.inr ⟨Who.main, ?_⟩
    simp only [step, hw.alive, stepMain, hm]
    simp only [Bool.false_eq_true, if_false]
    split <;> exact ⟨_, rfl⟩
  | inInterrupt k pc err =>
    simp only [Phase, hm] at hp
    simp only [ChanPhase, hm] at hc
    obtain ⟨_, _, hc⟩ := hc
    have hk : k < actors.length := hp.2.2.2.2.2
    refine Or.inr ⟨Who.main, ?_⟩
    by_cases hkd : k = d
    · subst hkd
      simp [step, hw.alive, stepMain, hm, hl.done_at, Done, New, Actor.Interrupt]
    · obtain ⟨r, hr⟩ := hl.waiter_at k hk hkd
      have hopen : s.heap.isClosed (ch k) = false := by
        have := hc k hk hkd
        cases hcl : s.heap.isClosed (ch k) with
        | false => rfl
        | true => rw [hcl] at this; simp at this
      simp [step, hw.alive, stepMain, hm, hr, waiterAt, New, Actor.Interrupt, closeChan, hopen]
  | draining i err =>
    simp only [Phase, hm] at hp
    obtain ⟨_, hcap, hlen, _, hrec, _, _, hin⟩ := hp
    simp only [ChanPhase, hm] at hc
    by_cases hi : i < actors.length
    · cases he : s.errors with
      | cons r rest =>
        refine Or.inr ⟨Who.main, ?_⟩
        simp only [step, hw.alive, stepMain, hm, he, hi]
        simp only [Bool.false_eq_true, if_false, if_true]
        exact ⟨_, rfl⟩
      | nil =>
        rw [hrec, he] at hsum
        simp only [List.length_nil, Nat.add_zero] at hsum
        obtain ⟨j, t, hj, ht⟩ := exists_unfinished s.tasks (by omega)
        have hjt := lt_of_getElem?_eq_some _ _ _ hj
        obtain ⟨s1, hs1⟩ := task_can_move actors d E ch hl s hinv hw j t hj ht
          (fun hjd => hc.2 j (by omega) hjd) (by rw [he, hcap]; simp; omega)
        exact Or.inr ⟨Who.task j, s1, hs1⟩
    · refine Or.inr ⟨Who.main, ?_⟩
      simp only [step, hw.alive, stepMain, hm, hi]
      simp only [Bool.false_eq_true, if_false]
      exact ⟨_, rfl⟩
  | returned err =>
    simp only [ChanPhase, hm] at hc
    exact Or.inl (by rw [hc.1])

theorem tasksCost_append (l : List Task) (t : Task) :
    tasksCost (l ++ [t]) = tasksCost l + taskCost t := by
  induction l with
  | nil => simp [tasksCost]
  | cons x xs ih => rw [List.cons_append]; simp only [tasksCost, ih]; omega

theorem tasksCost_set (l : List Task) (i : Nat) (t u : Task) (h : l[i]? = some t) :
    tasksCost (l.set i u) + taskCost t = tasksCost l + taskCost u := by
  induction l generalizing i with
  | nil => simp at h
  | cons x xs ih =>
    cases i with
    | zero =>
      simp only [List.getElem?_cons_zero, Option.some.injEq] at h
      subst h
      simp only [List.set_cons_zero, tasksCost]; omega
    | succ j =>
      simp only [List.getElem?_cons_succ] at h
      have := ih j h
      simp only [List.set_cons_succ, tasksCost]; omega

theorem cost_stepMain (actors : List Actor) (d : Nat) (E : Error) (ch : Nat → Chan)
    (hl : Layout actors d E ch) (s s1 : State) (hinv : Inv actors s)
    (hw : WInv actors d E ch s) (h : stepMain actors s = some s1) :
    cost actors.length s1 + 1 = cost actors.length s := by
  obtain ⟨heap, main, tasks, errors, cap, crashed, sent, received, interrupted⟩ := s
  have hp := hinv.phase
  have w6 := hw.chans
  have hd := hl.d_lt
  cases main with
  | entry =>
    simp only [stepMain] at h
    split at h <;> cases h
    · omega
    · simp only [cost, mainCost]; omega
  | spawning i =>
    simp only [Phase] at hp
    simp only [stepMain] at h
    split at h <;> cases h
    · simp only [cost, mainCost, tasksCost_append, taskCost, List.length_append,
        List.length_singleton]
      omega
    · simp only [cost, mainCost]; omega
  | receiving =>
    simp only [stepMain] at h
    split at h <;> cases h
    simp only [cost, mainCost]; omega
  | interrupting k err =>
    simp only [Phase] at hp
    simp only [stepMain] at h
    split at h <;> cases h
    · simp only [cost, mainCost]; omega
    · simp only [cost, mainCost]; omega
  | inInterrupt k pc err =>
    simp only [ChanPhase] at w6
    obtain ⟨rfl, rfl, w6⟩ := w6
    simp only [Phase] at hp
    have hk : k < actors.length := hp.2.2.2.2.2
    by_cases hkd : k = d
    · subst hkd
      simp only [stepMain, hl.done_at] at h
      cases h
      simp only [cost, mainCost]; omega
    · obtain ⟨r, hr⟩ := hl.waiter_at k hk hkd
      have hopen : heap.isClosed (ch k) = false := by
        have := w6 k hk hkd
        cases hc : heap.isClosed (ch k) with
        | false => rfl
        | true => rw [hc] at this; simp at this
      simp only [stepMain, hr, waiterAt, New, Actor.Interrupt, closeChan, hopen] at h
      cases h
      simp only [cost, mainCost]; omega
  | draining i err =>
    simp only [Phase] at hp
    simp only [stepMain] at h
    split at h
    · split at h <;> cases h
      simp only [cost, mainCost]; omega
    · cases h
      simp only [cost, mainCost]; omega
  | returned err => simp [stepMain] at h

theorem cost_stepTask (actors : List Actor) (d : Nat) (E : Error) (ch : Nat → Chan)
    (hl : Layout actors d E ch) (s s1 : State) (i : Nat)
    (hw : WInv actors d E ch s) (h : stepTask actors s i = some s1) :
    cost actors.length s1 + 1 = cost actors.length s := by
  simp only [stepTask] at h
  split at h
  · rename_i a pc ha ht
    have hia := lt_of_getElem?_eq_some _ _ _ ha
    have hexec : s1.main = s.main ∧ ∃ r, s1.tasks = s.tasks.set i (Task.sending r) := by
      by_cases hid : i = d
      · subst hid
        rw [hl.done_at] at ha
        cases ha
        simp only [Done, New, Actor.Execute] at h
        cases h
        exact ⟨rfl, _, rfl⟩
      · obtain ⟨r, hr⟩ := hl.waiter_at i hia hid
        rw [hr] at ha
        cases ha
        cases hcl : s.heap.isClosed (ch i) with
        | false => simp [waiterAt, New, Actor.Execute, waitChan, hcl] at h
        | true =>
          simp only [waiterAt, New, Actor.Execute, waitChan, hcl, if_true] at h
          cases h
          exact ⟨rfl, _, rfl⟩
    obtain ⟨hm, r, htk⟩ := hexec
    have := tasksCost_set s.tasks i _ (Task.sending r) ht
    simp only [taskCost] at this
    simp only [cost, hm, htk, List.length_set]
    omega
  · rename_i a r ha ht
    split at h
    · cases h
      have := tasksCost_set s.tasks i _ Task.finished ht
      simp only [taskCost] at this
      simp only [cost, List.length_set]
      omega
    · cases h
  · cases h

theorem cost_step (actors : List Actor) (d : Nat) (E : Error) (ch : Nat → Chan)
    (hl : Layout actors d E ch) (s s1 : State) (w : Who) (hinv : Inv actors s)
    (hw : WInv actors d E ch s) (h : step actors s w = some s1) :
    cost actors.length s1 + 1 = cost actors.length s := by
  simp only [step] at h
  split at h
  · cases h
  · cases w with
    | main => exact cost_stepMain actors d E ch hl s s1 hinv hw h
    | task i => exact cost_stepTask actors d E ch hl s s1 i hw h

theorem cost_exec (actors : List Actor) (d : Nat) (E : Error) (ch : Nat → Chan)
    (hl : Layout actors d E ch) (sched : List Who) (s s1 : State) (hinv : Inv actors s)
    (hw : WInv actors d E ch s) (h : exec actors s sched = some s1) :
    sched.length + cost actors.length s1 = cost actors.length s := by
  induction sched generalizing s with
  | nil => simp only [exec, Option.some.injEq] at h; subst h; simp
  | cons w ws ih =>
    simp only [exec] at h
    split at h
    · cases h
    · rename_i s2 hs
      have h1 := cost_step actors d E ch hl s s2 w hinv hw hs
      have h2 := ih s2 (inv_step actors s s2 w hinv hs)
        (winv_step actors d E ch hl s s2 w hinv hw hs) h
      simp only [List.length_cons]; omega

theorem build_append (cs ds : List (Heap → Actor × Heap)) (h : Heap) :
    build (cs ++ ds) h =
      ((build cs h).1 ++ (build ds (build cs h).2).1, (build ds (build cs h).2).2) := by
  induction cs generalizing h with
  | nil => simp [build]
  | cons c cs ih => rw [List.cons_append]; simp only [build]; rw [ih]; rfl

theorem build_waiters (rs : List Error) (h : Heap) :
    build (rs.map waiter) h =
      (waitersFrom h.chans.length rs,
        { h with chans := h.chans ++ List.replicate rs.length false }) := by
  induction rs generalizing h with
  | nil => simp [build, waitersFrom]
  | cons r rs ih =>
    simp only [List.map_cons, build, waiter, WithChannel, Heap.makeChan, ih, waitersFrom,
      waiterAt, List.length_append, List.length_singleton, List.length_cons,
      List.replicate_succ, List.append_assoc, List.singleton_append, List.length_nil,
      Nat.zero_add]

theorem doneAmongWaiters_eq (pre : List Error) (E : Error) (post : List Error) (h : Heap) :
    doneAmongWaiters pre E post h =
      (waitersFrom h.chans.length pre ++
          Done E :: waitersFrom (h.chans.length + pre.length) post,
        { h with chans := h.chans ++ List.replicate (pre.length + post.length) false }) := by
  simp only [doneAmongWaiters, build_append, build_waiters, build, List.length_append,
    List.length_replicate, List.append_assoc, List.append_replicate_replicate]

theorem waitersFrom_length (base : Nat) (rs : List Error) :
    (waitersFrom base rs).length = rs.length := by
  induction rs generalizing base with
  | nil => rfl
  | cons r rs ih => simp [waitersFrom, ih]

theorem waitersFrom_getElem? (base : Nat) (rs : List Error) (i : Nat) (hi : i < rs.length) :
    ∃ r, (waitersFrom base rs)[i]? = some (waiterAt r (base + i)) := by
  induction rs generalizing base i with
  | nil => simp at hi
  | cons r rs ih =>
    cases i with
    | zero => exact ⟨r, by simp [waitersFrom]⟩
    | succ j =>
      simp only [List.length_cons] at hi
      obtain ⟨r2, hr2⟩ := ih (base + 1) j (by omega)
      have he : base + 1 + j = base + (j + 1) := by omega
      rw [he] at hr2
      exact ⟨r2, by simp only [waitersFrom, List.getElem?_cons_succ, hr2]⟩

theorem doneAmongWaiters_layout (pre : List Error) (E : Error) (post : List Error)
    (h : Heap) :
    Layout (doneAmongWaiters pre E post h).1 pre.length E (chanAt h.chans.length pre.length) := by
  rw [doneAmongWaiters_eq]
  refine ⟨?_, ?_, ?_, ?_⟩
  · simp [waitersFrom_length]
  · rw [List.getElem?_append_right (by simp [waitersFrom_length])]
    simp [waitersFrom_length]
  · intro i hi hid
    dsimp only at hi
    simp only [List.length_append, List.length_cons, waitersFrom_length] at hi
    by_cases hlt : i < pre.length
    · obtain ⟨r, hr⟩ := waitersFrom_getElem? h.chans.length pre i hlt
      refine ⟨r, ?_⟩
      rw [List.getElem?_append_left (by simpa [waitersFrom_length] using hlt), hr]
      simp [chanAt, hlt]
    · obtain ⟨r, hr⟩ := waitersFrom_getElem? (h.chans.length + pre.length) post
        (i - pre.length - 1) (by omega)
      refine ⟨r, ?_⟩
      rw [List.getElem?_append_right (by simp [waitersFrom_length]; omega)]
      have h1 : i - (waitersFrom h.chans.length pre).length = (i - pre.length - 1) + 1 := by
        rw [waitersFrom_length]; omega
      have h2 : h.chans.length + pre.length + (i - pre.length - 1) = h.chans.length + i - 1 := by
        omega
      rw [h1, List.getElem?_cons_succ, hr, h2]
      simp only [chanAt, hlt, if_false]
  · intro i j hi hj hid hjd hc
    have hc2 : @Eq Nat (chanAt h.chans.length pre.length i) (chanAt h.chans.length pre.length j) :=
      hc
    simp only [chanAt] at hc2
    split at hc2 <;> split at hc2 <;> omega

theorem doneAmongWaiters_fresh (pre : List Error) (E : Error) (post : List Error)
    (h : Heap) (i : Nat) (hi : i < (doneAmongWaiters pre E post h).1.length)
    (hid : i ≠ pre.length) :
    chanAt h.chans.length pre.length i < (doneAmongWaiters pre E post h).2.chans.length ∧
      (doneAmongWaiters pre E post h).2.isClosed (chanAt h.chans.length pre.length i) =
        false := by
  rw [doneAmongWaiters_eq] at hi ⊢
  dsimp only at hi ⊢
  simp only [List.length_append, List.length_cons, waitersFrom_length] at hi
  have hlt : chanAt h.chans.length pre.length i <
      h.chans.length + (pre.length + post.length) := by
    simp only [chanAt]; split <;> omega
  have hge : h.chans.length ≤ chanAt h.chans.length pre.length i := by
    simp only [chanAt]; split <;> omega
  refine ⟨by simpa using hlt, ?_⟩
  simp only [Heap.isClosed, List.getD_eq_getElem?_getD]
  rw [List.getElem?_append_right hge]
  cases hg : (List.replicate (pre.length + post.length) false)[
      chanAt h.chans.length pre.length i - h.chans.length]? with
  | none => rfl
  | some b =>
    have := List.getElem?_mem hg
    simp only [List.mem_replicate] at this
    simp [this.2]

/-! ## Lemmas: returns of `Execute`, progress and the number of moves -/

theorem exec_append (actors : List Actor) (s : State) (xs ys : List Who) :
    exec actors s (xs ++ ys) =
      match exec actors s xs with
      | none => none
      | some s1 => exec actors s1 ys := by
  induction xs generalizing s with
  | nil => simp [exec]
  | cons w ws ih =>
    simp only [List.cons_append, exec]
    cases step actors s w with
    | none => rfl
    | some s1 => exact ih s1

theorem exec_snoc (actors : List Actor) (s s1 : State) (xs : List Who) (w : Who)
    (h : exec actors s (xs ++ [w]) = some s1) :
    ∃ s0, exec actors s xs = some s0 ∧ step actors s0 w = some s1 := by
  rw [exec_append] at h
  cases h0 : exec actors s xs with
  | none => rw [h0] at h; cases h
  | some s0 =>
    rw [h0] at h
    simp only [exec] at h
    cases h1 : step actors s0 w with
    | none => rw [h1] at h; cases h
    | some s2 =>
      rw [h1] at h
      simp only [Option.some.injEq] at h
      subst h
      exact ⟨s0, rfl, h1⟩

theorem executeReturned_snoc (actors : List Actor) (h : Heap) (sched : List Who) (w : Who)
    (i : Nat) (r : Error) (hr : ExecuteReturned actors h sched i r) :
    ExecuteReturned actors h (sched ++ [w]) i r := by
  obtain ⟨before, after, s0, pc, a, h1, hsplit, hex, ht, ha, hdone⟩ := hr
  exact ⟨before, after ++ [w], s0, pc, a, h1, by rw [hsplit]; simp, hex, ht, ha, hdone⟩

theorem stepMain_keeps_sending (actors : List Actor) (s s1 : State)
    (h : stepMain actors s = some s1) :
    s1.sent = s.sent ∧
      ∀ (i : Nat) (r : Error), s1.tasks[i]? = some (Task.sending r) →
        s.tasks[i]? = some (Task.sending r) := by
  obtain ⟨heap, main, tasks, errors, cap, crashed, sent, received, interrupted⟩ := s
  cases main with
  | entry =>
    simp only [stepMain] at h
    split at h <;> cases h <;> exact ⟨rfl, fun i r hi => hi⟩
  | spawning k =>
    simp only [stepMain] at h
    split at h <;> cases h
    · refine ⟨rfl, fun i r hi => ?_⟩
      rcases getElem?_append_executing _ _ _ hi with hh | hh
      · exact hh
      · cases hh
    · exact ⟨rfl, fun i r hi => hi⟩
  | receiving =>
    simp only [stepMain] at h
    split at h <;> cases h
    exact ⟨rfl, fun i r hi => hi⟩
  | interrupting k err =>
    simp only [stepMain] at h
    split at h <;> cases h <;> exact ⟨rfl, fun i r hi => hi⟩
  | inInterrupt k pc err =>
    simp only [stepMain] at h
    split at h
    · cases h
    · split at h
      · cases h; exact ⟨rfl, fun i r hi => hi⟩
      · cases h; exact ⟨rfl, fun i r hi => hi⟩
      · cases h
      · cases h; exact ⟨rfl, fun i r hi => hi⟩
  | draining k err =>
    simp only [stepMain] at h
    split at h
    · split at h <;> cases h
      exact ⟨rfl, fun i r hi => hi⟩
    · cases h; exact ⟨rfl, fun i r hi => hi⟩
  | returned err => simp [stepMain] at h

theorem trace_exec (actors : List Actor) (h : Heap) (sched : List Who) (s : State)
    (hs : exec actors (State.init h) sched = some s) :
    (∀ (i : Nat) (r : Error), s.tasks[i]? = some (Task.sending r) →
        ExecuteReturned actors h sched i r) ∧
      (∀ p, p ∈ s.sent → ExecuteReturned actors h sched p.1 p.2) := by
  induction sched using List.reverseRecOn generalizing s with
  | nil =>
    simp only [exec, Option.some.injEq] at hs
    subst hs
    constructor
    · intro i r hi; simp [State.init] at hi
    · intro p hp; simp [State.init] at hp
  | append_singleton pre w ih =>
    obtain ⟨s0, hs0, hstep⟩ := exec_snoc actors _ s pre w hs
    obtain ⟨ih1, ih2⟩ := ih s0 hs0
    simp only [step] at hstep
    split at hstep
    · cases hstep
    · cases w with
      | main =>
        obtain ⟨hsent, htasks⟩ := stepMain_keeps_sending actors s0 s hstep
        constructor
        · intro i r hi
          exact executeReturned_snoc _ _ _ _ _ _ (ih1 i r (htasks i r hi))
        · intro p hp
          rw [hsent] at hp
          exact executeReturned_snoc _ _ _ _ _ _ (ih2 p hp)
      | task j =>
        simp only [stepTask] at hstep
        split at hstep
        · rename_i a pc ha ht
          split at hstep
          · rename_i h1 r1 hdone
            cases hstep
            constructor
            · intro i r hi
              rcases getElem?_set_some _ _ _ _ _ hi with hh | hh
              · obtain ⟨rfl, hh2⟩ := hh
                cases hh2
                exact ⟨pre, [], s0, pc, a, h1, rfl, hs0, ht, ha, hdone⟩
              · exact executeReturned_snoc _ _ _ _ _ _ (ih1 i r hh.2)
            · intro p hp
              exact executeReturned_snoc _ _ _ _ _ _ (ih2 p hp)
          · cases hstep
            constructor
            · intro i r hi
              rcases getElem?_set_some _ _ _ _ _ hi with hh | hh
              · cases hh.2
              · exact executeReturned_snoc _ _ _ _ _ _ (ih1 i r hh.2)
            · intro p hp
              exact executeReturned_snoc _ _ _ _ _ _ (ih2 p hp)
          · cases hstep
          · cases hstep
            constructor
            · intro i r hi
              exact executeReturned_snoc _ _ _ _ _ _ (ih1 i r hi)
            · intro p hp
              exact executeReturned_snoc _ _ _ _ _ _ (ih2 p hp)
        · rename_i a r1 ha ht
          split at hstep
          · cases hstep
            constructor
            · intro i r hi
              rcases getElem?_set_some _ _ _ _ _ hi with hh | hh
              · cases hh.2
              · exact executeReturned_snoc _ _ _ _ _ _ (ih1 i r hh.2)
            · intro p hp
              rcases List.mem_append.mp hp with hp | hp
              · exact executeReturned_snoc _ _ _ _ _ _ (ih2 p hp)
              · simp only [List.mem_singleton] at hp
                subst hp
                exact executeReturned_snoc _ _ _ _ _ _ (ih1 j r1 ht)
          · cases hstep
        · cases hstep

theorem task_moves_or_blocked (actors : List Actor) (s : State) (hinv : Inv actors s)
    (hc : s.crashed = false) (j : Nat) (t : Task) (ht : s.tasks[j]? = some t)
    (hnf : t ≠ Task.finished) :
    (∃ s1, step actors s (Who.task j) = some s1) ∨
      ∃ (pc : Nat) (a : Actor), s.tasks[j]? = some (Task.executing pc) ∧
        actors[j]? = some a ∧ a.Execute pc s.heap = Step.block := by
  have hjt := lt_of_getElem?_eq_some _ _ _ ht
  have hja : j < actors.length := by have := hinv.tasks_le; omega
  have ha : actors[j]? = some actors[j] := List.getElem?_eq_getElem hja
  cases t with
  | executing pc =>
    cases hx : actors[j].Execute pc s.heap with
    | done h1 r => exact Or.inl (by simp [step, hc, stepTask, ht, ha, hx])
    | more h1 pc1 => exact Or.inl (by simp [step, hc, stepTask, ht, ha, hx])
    | block => exact Or.inr ⟨pc, actors[j], ht, ha, hx⟩
    | panic => exact Or.inl (by simp [step, hc, stepTask, ht, ha, hx])
  | sending r =>
    have hsum := errors_le_sent actors s hinv
    have hnf2 := numFinished_lt s.tasks j _ ht (by simp)
    have hcap := cap_of_tasks actors s hinv (by omega)
    have hle := hinv.tasks_le
    have hroom : s.errors.length < s.cap := by omega
    exact Or.inl (by simp [step, hc, stepTask, ht, ha, hroom])
  | finished => exact absurd rfl hnf

theorem run_progress (actors : List Actor) (s : State) (hinv : Inv actors s)
    (hc : s.crashed = false) :
    (∃ v, s.main = Main.returned v) ∨
    (∃ w s1, step actors s w = some s1) ∨
    (∃ (i pc : Nat) (a : Actor), s.tasks[i]? = some (Task.executing pc) ∧
      actors[i]? = some a ∧ a.Execute pc s.heap = Step.block) ∨
    (∃ (i pc : Nat) (err : Error) (a : Actor), s.main = Main.inInterrupt i pc err ∧
      actors[i]? = some a ∧ a.Interrupt pc s.heap = Step.block) := by
  have hp := hinv.phase
  have hsum := errors_le_sent actors s hinv
  have waiting : s.errors = [] → numFinished s.tasks < s.tasks.length →
      (∃ w s1, step actors s w = some s1) ∨
      (∃ (i pc : Nat) (a : Actor), s.tasks[i]? = some (Task.executing pc) ∧
        actors[i]? = some a ∧ a.Execute pc s.heap = Step.block) := by
    intro _ hlt
    obtain ⟨j, t, hj, ht⟩ := exists_unfinished s.tasks hlt
    rcases task_moves_or_blocked actors s hinv hc j t hj ht with ⟨s1, hs1⟩ | ⟨pc, a, h1, h2, h3⟩
    · exact Or.inl ⟨Who.task j, s1, hs1⟩
    · exact Or.inr ⟨j, pc, a, h1, h2, h3⟩
  cases hm : s.main with
  | entry =>
    refine Or.inr (Or.inl ⟨Who.main, ?_⟩)
    simp only [step, hc, stepMain, hm]
    simp only [Bool.false_eq_true, if_false]
    split <;> exact ⟨_, rfl⟩
  | spawning i =>
    refine Or.inr (Or.inl ⟨Who.main, ?_⟩)
    simp only [step, hc, stepMain, hm]
    simp only [Bool.false_eq_true, if_false]
    split <;> exact ⟨_, rfl⟩
  | receiving =>
    simp only [Phase, hm] at hp
    obtain ⟨hne, hcap, hlen, hrec, _⟩ := hp
    have hn : 0 < actors.length := List.length_pos.mpr hne
    cases he : s.errors with
    | cons r rest =>
      refine Or.inr (Or.inl ⟨Who.main, ?_⟩)
      simp only [step, hc, stepMain, hm, he]
      simp only [Bool.false_eq_true, if_false]
      exact ⟨_, rfl⟩
    | nil =>
      rw [hrec, he] at hsum
      simp only [List.length_nil, Nat.add_zero] at hsum
      rcases waiting he (by omega) with hh | hh
      · exact Or.inr (Or.inl hh)
      · exact Or.inr (Or.inr (Or.inl hh))
  | interrupting i err =>
    refine Or.inr (Or.inl ⟨Who.main, ?_⟩)
    simp only [step, hc, stepMain, hm]
    simp only [Bool.false_eq_true, if_false]
    split <;> exact ⟨_, rfl⟩
  | inInterrupt k pc err =>
    simp only [Phase, hm] at hp
    have hk : k < actors.length := hp.2.2.2.2.2
    have ha : actors[k]? = some actors[k] := List.getElem?_eq_getElem hk
    cases hx : actors[k].Interrupt pc s.heap with
    | done h1 u =>
      exact Or.inr (Or.inl ⟨Who.main, by simp [step, hc, stepMain, hm, ha, hx]⟩)
    | more h1 pc1 =>
      exact Or.inr (Or.inl ⟨Who.main, by simp [step, hc, stepMain, hm, ha, hx]⟩)
    | block => exact Or.inr (Or.inr (Or.inr ⟨k, pc, err, actors[k], rfl, ha, hx⟩))
    | panic =>
      exact Or.inr (Or.inl ⟨Who.main, by simp [step, hc, stepMain, hm, ha, hx]⟩)
  | draining i err =>
    simp only [Phase, hm] at hp
    obtain ⟨_, hcap, hlen, _, hrec, _, _, hin⟩ := hp
    by_cases hi : i < actors.length
    · cases he : s.errors with
      | cons r rest =>
        refine Or.inr (Or.inl ⟨Who.main, ?_⟩)
        simp only [step, hc, stepMain, hm, he, hi]
        simp only [Bool.false_eq_true, if_false, if_true]
        exact ⟨_, rfl⟩
      | nil =>
        rw [hrec, he] at hsum
        simp only [List.length_nil, Nat.add_zero] at hsum
        rcases waiting he (by omega) with hh | hh
        · exact Or.inr (Or.inl hh)
        · exact Or.inr (Or.inr (Or.inl hh))
    · refine Or.inr (Or.inl ⟨Who.main, ?_⟩)
      simp only [step, hc, stepMain, hm, hi]
      simp only [Bool.false_eq_true, if_false]
      exact ⟨_, rfl⟩
  | returned err => exact Or.inl ⟨err, rfl⟩

theorem own_stepMain (actors : List Actor) (hne : actors ≠ []) (s s1 : State)
    (hinv : Inv actors s) (hc : s.crashed = false) (h : stepMain actors s = some s1) :
    cost actors.length s1 + (if isInner actors s Who.main then 0 else 1) =
      cost actors.length s + (if s1.crashed then 1 else 0) := by
  obtain ⟨heap, main, tasks, errors, cap, crashed, sent, received, interrupted⟩ := s
  have hp := hinv.phase
  have hn : 0 < actors.length := List.length_pos.mpr hne
  simp only at hc
  subst hc
  cases main with
  | entry =>
    simp only [stepMain] at h
    split at h <;> cases h
    · omega
    · simp [cost, mainCost, isInner]; omega
  | spawning i =>
    simp only [Phase] at hp
    simp only [stepMain] at h
    split at h <;> cases h
    · simp [cost, mainCost, tasksCost_append, taskCost, isInner]
      omega
    · simp [cost, mainCost, isInner]; omega
  | receiving =>
    simp only [stepMain] at h
    split at h <;> cases h
    simp [cost, mainCost, isInner]; omega
  | interrupting k err =>
    simp only [Phase] at hp
    simp only [stepMain] at h
    split at h <;> cases h
    · simp [cost, mainCost, isInner]; omega
    · simp [cost, mainCost, isInner]; omega
  | inInterrupt k pc err =>
    simp only [Phase] at hp
    have hk : k < actors.length := hp.2.2.2.2.2
    have ha : actors[k]? = some actors[k] := List.getElem?_eq_getElem hk
    cases hx : actors[k].Interrupt pc heap with
    | done h1 u =>
      simp only [stepMain, ha, hx] at h
      cases h
      simp [cost, mainCost, isInner, ha, hx]; omega
    | more h1 pc1 =>
      simp only [stepMain, ha, hx] at h
      cases h
      simp [cost, mainCost, isInner, ha, hx]
    | block => simp [stepMain, ha, hx] at h
    | panic =>
      simp only [stepMain, ha, hx] at h
      cases h
      simp [cost, mainCost, isInner, ha, hx]
  | draining i err =>
    simp only [Phase] at hp
    simp only [stepMain] at h
    split at h
    · split at h <;> cases h
      simp [cost, mainCost, isInner]; omega
    · cases h
      simp [cost, mainCost, isInner]; omega
  | returned err => simp [stepMain] at h

theorem own_stepTask (actors : List Actor) (s s1 : State) (i : Nat)
    (hc : s.crashed = false) (h : stepTask actors s i = some s1) :
    cost actors.length s1 + (if isInner actors s (Who.task i) then 0 else 1) =
      cost actors.length s + (if s1.crashed then 1 else 0) := by
  simp only [stepTask] at h
  split at h
  · rename_i a pc ha ht
    cases hx : a.Execute pc s.heap with
    | done h1 r =>
      simp only [hx] at h
      cases h
      have := tasksCost_set s.tasks i _ (Task.sending r) ht
      simp only [taskCost] at this
      simp [cost, isInner, ha, ht, hx, hc]
      omega
    | more h1 pc1 =>
      simp only [hx] at h
      cases h
      have := tasksCost_set s.tasks i _ (Task.executing pc1) ht
      simp only [taskCost] at this
      simp [cost, isInner, ha, ht, hx, hc]
      omega
    | block => simp [hx] at h
    | panic =>
      simp only [hx] at h
      cases h
      simp [cost, isInner, ha, ht, hx]
  · rename_i a r ha ht
    split at h
    · cases h
      have := tasksCost_set s.tasks i _ Task.finished ht
      simp only [taskCost] at this
      simp [cost, isInner, ha, ht, hc]
      omega
    · cases h
  · cases h

theorem own_step (actors : List Actor) (hne : actors ≠ []) (s s1 : State) (w : Who)
    (hinv : Inv actors s) (h : step actors s w = some s1) :
    s.crashed = false ∧
    cost actors.length s1 + (if isInner actors s w then 0 else 1) =
      cost actors.length s + (if s1.crashed then 1 else 0) := by
  simp only [step] at h
  split at h
  · cases h
  · rename_i hc
    have hc2 : s.crashed = false := by simpa using hc
    refine ⟨hc2, ?_⟩
    cases w with
    | main => exact own_stepMain actors hne s s1 hinv hc2 h
    | task i => exact own_stepTask actors s s1 i hc2 h

theorem own_exec (actors : List Actor) (hne : actors ≠ []) (sched : List Who)
    (s s1 : State) (hinv : Inv actors s) (hc : s.crashed = false)
    (h : exec actors s sched = some s1) :
    ownMoves actors s sched + cost actors.length s1 =
      cost actors.length s + (if s1.crashed then 1 else 0) := by
  induction sched generalizing s with
  | nil =>
    simp only [exec, Option.some.injEq] at h
    subst h
    simp [ownMoves, hc]
  | cons w ws ih =>
    simp only [exec] at h
    split at h
    · cases h
    · rename_i s2 hs
      obtain ⟨_, hstep⟩ := own_step actors hne s s2 w hinv hs
      simp only [ownMoves, hs]
      cases hc2 : s2.crashed with
      | false =>
        have h2 := ih s2 (inv_step actors s s2 w hinv hs) hc2 h
        rw [hc2] at hstep
        simp only [Bool.false_eq_true, if_false, Nat.add_zero] at hstep
        omega
      | true =>
        cases ws with
        | nil =>
          simp only [exec, Option.some.injEq] at h
          subst h
          simp only [ownMoves, hc2, if_true] at hstep ⊢
          omega
        | cons w2 ws2 =>
          simp [exec, step, hc2] at h

theorem interruptReturned_snoc (actors : List Actor) (h : Heap) (sched : List Who) (w : Who)
    (i : Nat) (hr : InterruptReturned actors h sched i) :
    InterruptReturned actors h (sched ++ [w]) i := by
  obtain ⟨before, after, s0, pc, err, a, h1, hsplit, hex, hm, hrec, ha, hdone⟩ := hr
  exact ⟨before, after ++ [w], s0, pc, err, a, h1, by rw [hsplit]; simp, hex, hm, hrec, ha,
    hdone⟩

theorem stepTask_main (actors : List Actor) (s s1 : State) (i : Nat)
    (h : stepTask actors s i = some s1) : s1.main = s.main := by
  simp only [stepTask] at h
  split at h
  · split at h <;> cases h <;> rfl
  · split at h <;> cases h
    rfl
  · cases h

theorem interrupts_exec (actors : List Actor) (hne : actors ≠ []) (h : Heap)
    (sched : List Who) (s : State) (hs : exec actors (State.init h) sched = some s) :
    ∀ i, i < interruptsDone actors.length s.main → InterruptReturned actors h sched i := by
  induction sched using List.reverseRecOn generalizing s with
  | nil =>
    simp only [exec, Option.some.injEq] at hs
    subst hs
    intro i hi
    simp [State.init, interruptsDone] at hi
  | append_singleton pre w ih =>
    obtain ⟨s0, hs0, hstep⟩ := exec_snoc actors _ s pre w hs
    have ih0 := ih s0 hs0
    have hinv := inv_reach actors h pre s0 hs0
    have hp := hinv.phase
    intro i hi
    simp only [step] at hstep
    split at hstep
    · cases hstep
    · cases w with
      | task j =>
        rw [stepTask_main actors s0 s j hstep] at hi
        exact interruptReturned_snoc _ _ _ _ _ (ih0 i hi)
      | main =>
        obtain ⟨heap, main, tasks, errors, cap, crashed, sent, received, interrupted⟩ := s0
        cases main with
        | entry =>
          simp only [stepMain] at hstep
          split at hstep <;> cases hstep
          · rename_i h0
            exact absurd (List.length_eq_zero.mp h0) hne
          · simp [interruptsDone] at hi
        | spawning k =>
          simp only [stepMain] at hstep
          split at hstep <;> cases hstep <;> simp [interruptsDone] at hi
        | receiving =>
          simp only [stepMain] at hstep
          split at hstep <;> cases hstep
          simp [interruptsDone] at hi
        | interrupting k err =>
          simp only [Phase] at hp
          simp only [stepMain] at hstep
          split at hstep <;> cases hstep
          · exact interruptReturned_snoc _ _ _ _ _ (ih0 i hi)
          · simp only [interruptsDone] at hi ih0
            exact interruptReturned_snoc _ _ _ _ _ (ih0 i (by omega))
        | inInterrupt k pc err =>
          simp only [Phase] at hp
          simp only [stepMain] at hstep
          split at hstep
          · cases hstep
          · rename_i a ha
            cases hx : a.Interrupt pc heap with
            | done h1 u =>
              simp only [hx] at hstep
              cases hstep
              simp only [interruptsDone] at hi ih0
              by_cases hik : i = k
              · subst hik
                exact ⟨pre, [], _, pc, err, a, h1, rfl, hs0, rfl, hp.2.2.2.1, ha, hx⟩
              · exact interruptReturned_snoc _ _ _ _ _ (ih0 i (by omega))
            | more h1 pc1 =>
              simp only [hx] at hstep
              cases hstep
              exact interruptReturned_snoc _ _ _ _ _ (ih0 i hi)
            | block => simp [hx] at hstep
            | panic =>
              simp only [hx] at hstep
              cases hstep
              exact interruptReturned_snoc _ _ _ _ _ (ih0 i hi)
        | draining k err =>
          simp only [stepMain] at hstep
          split at hstep
          · split at hstep <;> cases hstep
            exact interruptReturned_snoc _ _ _ _ _ (ih0 i hi)
          · cases hstep
            exact interruptReturned_snoc _ _ _ _ _ (ih0 i hi)
        | returned err => simp [stepMain] at hstep

/-! ## The claims -/

/-- C1: for a non-empty group and every schedule.  When `Run` has returned `v`,
`v` is the first value `Run` received from the result channel, which is the
first value sent on it and is what `Execute` of some actor returned, whatever
was sent or received later; a first result `nil` makes `Run` return `nil`.
`Run` does return it: the first receive takes the oldest value of the channel,
every later receive drops its value and keeps the first, and after the last
one the next move of `Run` is the return of the first.  As long as `Run` has
not returned and no goroutine has panicked, some goroutine can move, unless an
`Execute` or an `Interrupt` of an actor is blocked; and a schedule has at most
`6 n + 5` moves besides those that stay inside an actor function. -/
theorem run_returns_first_received (actors : List Actor) (h : Heap) (sched : List Who)
    (s : State) (hne : actors ≠ [])
    (hs : exec actors (State.init h) sched = some s) :
    (∀ v, s.main = Main.returned v →
      s.received.head? = some v ∧ (s.sent.map Prod.snd).head? = some v ∧
      (∃ i, ExecuteReturned actors h sched i v) ∧
      (∀ rest, s.received = none :: rest → v = none)) ∧
    (∀ r rest, s.main = Main.receiving → s.errors = r :: rest → s.crashed = false →
      step actors s Who.main =
        some { s with errors := rest, received := s.received ++ [r],
                      main := Main.interrupting 0 r }) ∧
    (∀ i err r rest, s.main = Main.draining i err → i < actors.length →
      s.errors = r :: rest → s.crashed = false →
      step actors s Who.main =
        some { s with errors := rest, received := s.received ++ [r],
                      main := Main.draining (i + 1) err }) ∧
    (∀ i err, s.main = Main.draining i err → ¬ i < actors.length → s.crashed = false →
      step actors s Who.main = some { s with main := Main.returned err }) ∧
    (s.crashed = false →
      (∃ v, s.main = Main.returned v) ∨
      (∃ w s1, step actors s w = some s1) ∨
      (∃ (i pc : Nat) (a : Actor), s.tasks[i]? = some (Task.executing pc) ∧
        actors[i]? = some a ∧ a.Execute pc s.heap = Step.block) ∨
      (∃ (i pc : Nat) (err : Error) (a : Actor), s.main = Main.inInterrupt i pc err ∧
        actors[i]? = some a ∧ a.Interrupt pc s.heap = Step.block)) ∧
    ownMoves actors (State.init h) sched ≤ 6 * actors.length + 5 := by
  have hinv := inv_reach actors h sched s hs
  have hp := hinv.phase
  refine ⟨?_, ?_, ?_, ?_, run_progress actors s hinv, ?_⟩
  · intro v hret
    simp only [Phase, hret] at hp
    rcases hp with hp | hp
    · exact absurd hp.1 hne
    · obtain ⟨_, _, _, hhead, _, _⟩ := hp
      have hf := hinv.fifo
      cases hr : s.received with
      | nil => rw [hr] at hhead; simp at hhead
      | cons x xs =>
        rw [hr] at hhead hf
        simp only [List.head?_cons, Option.some.injEq] at hhead
        subst hhead
        cases hsent : s.sent with
        | nil => rw [hsent] at hf; simp at hf
        | cons p ps =>
          rw [hsent] at hf
          simp only [List.map_cons, List.cons_append, List.cons.injEq] at hf
          refine ⟨rfl, by simp [hf.1], ⟨p.1, ?_⟩, ?_⟩
          · have := (trace_exec actors h sched s hs).2 p (by rw [hsent]; simp)
            rw [hf.1] at this
            exact this
          · intro rest hrest
            simp only [List.cons.injEq] at hrest
            exact hrest.1
  · intro r rest hm he hc
    simp [step, hc, stepMain, hm, he]
  · intro i err r rest hm hi he hc
    simp [step, hc, stepMain, hm, he, hi]
  · intro i err hm hi hc
    simp [step, hc, stepMain, hm, hi]
  · have hown := own_exec actors hne sched _ s (inv_init actors h) rfl hs
    have hone : (if s.crashed = true then 1 else 0) ≤ 1 := by split <;> omega
    have hinit : cost actors.length (State.init h) = 6 * actors.length + 4 := by
      simp only [cost, State.init, mainCost, tasksCost, List.length_nil]; omega
    omega

theorem run_returns_first_received_witness :
    exec [Done none, Done (some 7)] (State.init Heap.empty) schedTwoDone = some endTwoDone ∧
    endTwoDone.main = Main.returned none ∧
    endTwoDone.received = [none, some 7] ∧
    (endTwoDone.received.head? = some none ∧
      (endTwoDone.sent.map Prod.snd).head? = some none ∧
      (∃ i, ExecuteReturned [Done none, Done (some 7)] Heap.empty schedTwoDone i none) ∧
      (∀ rest, endTwoDone.received = none :: rest → (none : Error) = none)) :=
  ⟨rfl, rfl, rfl,
    (run_returns_first_received [Done none, Done (some 7)] Heap.empty schedTwoDone
      endTwoDone (by simp) rfl).1 none rfl⟩

/-- C2: `Run` with no actors has one behaviour: its caller moves once, to the
return of `nil`; no task exists or moves, the heap is untouched (no `Execute`,
no `Interrupt`), nothing is received, and nothing moves afterwards. -/
theorem run_no_actors (h : Heap) (sched : List Who) :
    exec [] (State.init h) sched =
      if sched = [] then some (State.init h)
      else if sched = [Who.main] then
        some { heap := h, main := Main.returned none, tasks := [], errors := [], cap := 0,
               crashed := false, sent := [], received := [], interrupted := [] }
      else none := by
  cases sched with
  | nil => simp [exec]
  | cons w ws =>
    cases w with
    | main =>
      cases ws with
      | nil => simp [exec, step, stepMain, State.init]
      | cons w2 ws2 =>
        cases w2 <;> simp [exec, step, stepMain, stepTask, State.init]
    | task i => simp [exec, step, stepTask, State.init]

/-- C3: for every `E` and every group made of waiters, `Done(E)` and more
waiters, under every schedule: `Run` returns nothing but `E`; no goroutine
panics; while `Run` has received nothing the `Execute` of no waiter has returned;
as long as `Run` has not returned `E` some goroutine can move; and a schedule
has at most `6 n + 4` moves (`n` the size of the group), so the moves cannot
go on for ever and every schedule that cannot be extended ends with `Run`
having returned `E`. -/
theorem run_done_among_waiters (pre post : List Error) (E : Error) (h : Heap)
    (sched : List Who) (s : State)
    (hs : exec (doneAmongWaiters pre E post h).1
      (State.init (doneAmongWaiters pre E post h).2) sched = some s) :
    (∀ v, s.main = Main.returned v → v = E) ∧
    s.crashed = false ∧
    (s.received = [] → ∀ i t, i ≠ pre.length → s.tasks[i]? = some t →
      t = Task.executing 0) ∧
    (s.main = Main.returned E ∨
      ∃ w s1, step (doneAmongWaiters pre E post h).1 s w = some s1) ∧
    sched.length ≤ 6 * (pre.length + post.length + 1) + 4 := by
  have hl := doneAmongWaiters_layout pre E post h
  have hinv := inv_reach _ _ sched s hs
  have hw0 := winv_init (doneAmongWaiters pre E post h).1 pre.length E
    (chanAt h.chans.length pre.length) (doneAmongWaiters pre E post h).2
    (fun i hi hid => doneAmongWaiters_fresh pre E post h i hi hid)
  have hw := winv_exec _ _ _ _ hl sched _ s (inv_init _ _) hw0 hs
  have hcost := cost_exec _ _ _ _ hl sched _ s (inv_init _ _) hw0 hs
  have hn : (doneAmongWaiters pre E post h).1.length = pre.length + post.length + 1 := by
    rw [doneAmongWaiters_eq]
    simp only [List.length_append, List.length_cons, waitersFrom_length]; omega
  refine ⟨?_, hw.alive, ?_, winv_progress _ _ _ _ hl s hinv hw, ?_⟩
  · intro v hv
    have hc := hw.chans
    simp only [ChanPhase, hv] at hc
    exact hc.1
  · intro hrec i t hid ht
    have hit := lt_of_getElem?_eq_some _ _ _ ht
    have hia : i < (doneAmongWaiters pre E post h).1.length := by
      have := hinv.tasks_le; omega
    rcases hw.waiterTask i t hid ht with hc | hc
    · exact hc
    · exfalso
      have hc1 := hc.1
      have hch := hw.chans
      have hp := hinv.phase
      have hd := hl.d_lt
      unfold ChanPhase at hch
      unfold Phase at hp
      split at hch
      · rw [hch i hia hid] at hc1; cases hc1
      · rw [hch i hia hid] at hc1; cases hc1
      · rw [hch i hia hid] at hc1; cases hc1
      · simp_all
      · simp_all
      · simp_all
      · simp_all
  · rw [hn] at hcost
    simp only [cost, State.init, mainCost, tasksCost, List.length_nil] at hcost
    omega

theorem run_done_among_waiters_witness :
    exec (doneAmongWaiters [some 3] (some 7) [none] Heap.empty).1
        (State.init (doneAmongWaiters [some 3] (some 7) [none] Heap.empty).2)
        schedWaiters = some endWaiters ∧
    endWaiters.main = Main.returned (some 7) ∧
    (∀ v, endWaiters.main = Main.returned v → v = some 7) :=
  ⟨rfl, rfl,
    (run_done_among_waiters [some 3] [none] (some 7) Heap.empty schedWaiters endWaiters
      rfl).1⟩

/-- C4: for a non-empty group and every schedule.  The `Interrupt` calls made
so far are those of the actors `0, 1, ..., k-1` in this order, once each; none
is made before a first result has been received; when `Run` has returned,
every actor of the group has had its call, the task whose result arrived first
included.  The calls are real: when the loop stands at actor `i` the next move
of `Run` enters `actors[i].Interrupt`; while `Run` is inside that call, the
last call made is that of actor `i` and the next move of `Run` is the move of
`actors[i].Interrupt` on the heap (its return leads to actor `i + 1`, its
panic ends the program, and `Run` is blocked while it is); after the last
actor the loop is left for the drain; outside these calls no move of `Run`
changes the heap; and when `Run` has returned, for every actor the schedule
holds a move at which its `Interrupt` returned, made after the first result
was received. -/
theorem run_interrupts_all_in_order (actors : List Actor) (h : Heap) (sched : List Who)
    (s : State) (hne : actors ≠ [])
    (hs : exec actors (State.init h) sched = some s) :
    (∃ k, k ≤ actors.length ∧ s.interrupted = List.range k) ∧
    (s.interrupted ≠ [] → s.received ≠ []) ∧
    (∀ v, s.main = Main.returned v →
      s.interrupted = List.range actors.length ∧
      ∃ i r rest, s.sent = (i, r) :: rest ∧ r = v ∧ i ∈ s.interrupted) ∧
    (∀ i err, s.main = Main.interrupting i err → i < actors.length → s.crashed = false →
      step actors s Who.main =
        some { s with interrupted := s.interrupted ++ [i],
                      main := Main.inInterrupt i 0 err }) ∧
    (∀ i pc err, s.main = Main.inInterrupt i pc err →
      ∃ a, actors[i]? = some a ∧ s.interrupted = List.range (i + 1) ∧
        s.received = [err] ∧
        (s.crashed = false →
          step actors s Who.main =
            match a.Interrupt pc s.heap with
            | Step.done h1 _ => some { s with heap := h1, main := Main.interrupting (i + 1) err }
            | Step.more h1 pc1 => some { s with heap := h1, main := Main.inInterrupt i pc1 err }
            | Step.block => none
            | Step.panic => some { s with crashed := true })) ∧
    (∀ i err, s.main = Main.interrupting i err → ¬ i < actors.length → s.crashed = false →
      step actors s Who.main = some { s with main := Main.draining 1 err }) ∧
    (∀ s1, step actors s Who.main = some s1 →
      (∀ i pc err, s.main ≠ Main.inInterrupt i pc err) → s1.heap = s.heap) ∧
    (∀ v, s.main = Main.returned v →
      ∀ i, i < actors.length → InterruptReturned actors h sched i) := by
  have hinv := inv_reach actors h sched s hs
  have hp := hinv.phase
  refine ⟨?_, ?_, ?_, ?_, ?_, ?_, ?_, ?_⟩
  · unfold Phase at hp
    split at hp
    · exact ⟨0, by omega, by simp [hp.2.2]⟩
    · exact ⟨0, by omega, by simp [hp.2.2.2.2.2]⟩
    · exact ⟨0, by omega, by simp [hp.2.2.2.2]⟩
    · exact ⟨_, hp.2.2.2.2.2, hp.2.2.2.2.1⟩
    · exact ⟨_, by have := hp.2.2.2.2.2; omega, hp.2.2.2.2.1⟩
    · exact ⟨_, le_refl _, hp.2.2.2.2.2.1⟩
    · rcases hp with hp | hp
      · exact absurd hp.1 hne
      · exact ⟨_, le_refl _, hp.2.2.2.2.2⟩
  · intro hi
    unfold Phase at hp
    split at hp
    · exact absurd hp.2.2 hi
    · exact absurd hp.2.2.2.2.2 hi
    · exact absurd hp.2.2.2.2 hi
    · simp [hp.2.2.2.1]
    · simp [hp.2.2.2.1]
    · intro hr; rw [hr] at hp; simp at hp
    · rcases hp with hp | hp
      · exact absurd hp.1 hne
      · intro hr; rw [hr] at hp; simp at hp
  · intro v hret
    simp only [Phase, hret] at hp
    rcases hp with hp | hp
    · exact absurd hp.1 hne
    · obtain ⟨_, _, hlen, hhead, _, hint⟩ := hp
      refine ⟨hint, ?_⟩
      have hf := hinv.fifo
      cases hsent : s.sent with
      | nil =>
        rw [hsent] at hf
        cases hr : s.received with
        | nil => rw [hr] at hhead; simp at hhead
        | cons x xs => rw [hr] at hf; simp at hf
      | cons p rest =>
        obtain ⟨i, r⟩ := p
        refine ⟨i, r, rest, rfl, ?_, ?_⟩
        · rw [hsent] at hf
          cases hr : s.received with
          | nil => rw [hr] at hhead; simp at hhead
          | cons x xs =>
            rw [hr] at hf hhead
            simp only [List.map_cons, List.cons_append, List.cons.injEq] at hf
            simp only [List.head?_cons, Option.some.injEq] at hhead
            rw [hf.1, hhead]
        · have hi := (hinv.sent_iff i).mp (by rw [hsent]; simp)
          have hlt : i < s.tasks.length := lt_of_getElem?_eq_some _ _ _ hi
          rw [hint, List.mem_range]; omega
  · intro i err hm hi hc
    simp [step, hc, stepMain, hm, hi]
  · intro i pc err hm
    simp only [Phase, hm] at hp
    obtain ⟨_, _, _, hrec, hint, hi⟩ := hp
    refine ⟨actors[i], List.getElem?_eq_getElem hi, hint, hrec, ?_⟩
    intro hc
    cases hx : actors[i].Interrupt pc s.heap <;>
      simp [step, hc, stepMain, hm, List.getElem?_eq_getElem hi, hx]
  · intro i err hm hi hc
    simp [step, hc, stepMain, hm, hi]
  · intro s1 hstep hnot
    simp only [step] at hstep
    split at hstep
    · cases hstep
    · simp only [stepMain] at hstep
      split at hstep
      · split at hstep <;> cases hstep <;> rfl
      · split at hstep <;> cases hstep <;> rfl
      · split at hstep <;> cases hstep
        rfl
      · split at hstep <;> cases hstep <;> rfl
      · rename_i i pc err hm
        exact absurd hm (hnot i pc err)
      · split at hstep
        · split at hstep <;> cases hstep
          rfl
        · cases hstep; rfl
      · cases hstep
  · intro v hret i hi
    exact interrupts_exec actors hne h sched s hs i (by simp [hret, interruptsDone, hi])

theorem run_interrupts_all_in_order_witness :
    exec [Done none, Done (some 7)] (State.init Heap.empty) schedTwoDone = some endTwoDone ∧
    endTwoDone.main = Main.returned none ∧
    endTwoDone.interrupted = List.range [Done none, Done (some 7)].length ∧
    (∃ i r rest, endTwoDone.sent = (i, r) :: rest ∧ r = none ∧ i ∈ endTwoDone.interrupted) :=
  ⟨rfl, rfl,
    ((run_interrupts_all_in_order [Done none, Done (some 7)] Heap.empty schedTwoDone
      endTwoDone (by simp) rfl).2.2.1 none rfl).1,
    ((run_interrupts_all_in_order [Done none, Done (some 7)] Heap.empty schedTwoDone
      endTwoDone (by simp) rfl).2.2.1 none rfl).2⟩

/-- C5: for a group of `n ≥ 1` actors and every schedule.  When `Run` has
returned it has received exactly `n` results, the `n` values sent, one by each
of the `n` tasks; the channel is empty; every task has ended; and for every
actor, along the schedule its `Execute` returned, and the value it returned is
the one its task sent.  `Run` waits for them: with fewer than `n` results
received and an empty channel `Run` cannot move, and once `n` results have
been received its next move is the return. -/
theorem run_returns_after_all_tasks (actors : List Actor) (h : Heap) (sched : List Who)
    (s : State) (hn : 1 ≤ actors.length)
    (hs : exec actors (State.init h) sched = some s) :
    (∀ v, s.main = Main.returned v →
      s.received.length = actors.length ∧ s.sent.length = actors.length ∧
      s.received = s.sent.map Prod.snd ∧
      s.errors = [] ∧ s.tasks.length = actors.length ∧
      (∀ i, i < actors.length → s.tasks[i]? = some Task.finished) ∧
      (∀ i, i < actors.length →
        ∃ r, (i, r) ∈ s.sent ∧ ExecuteReturned actors h sched i r)) ∧
    (s.main = Main.receiving → s.errors = [] → step actors s Who.main = none) ∧
    (∀ i err, s.main = Main.draining i err →
      s.received.length = i ∧
      (i < actors.length → s.errors = [] → step actors s Who.main = none) ∧
      (¬ i < actors.length → s.crashed = false →
        step actors s Who.main = some { s with main := Main.returned err })) := by
  have hinv := inv_reach actors h sched s hs
  have hp := hinv.phase
  refine ⟨?_, ?_, ?_⟩
  · intro v hret
    simp only [Phase, hret] at hp
    rcases hp with hp | hp
    · rw [hp.1] at hn; simp at hn
    · obtain ⟨_, _, hlen, _, hrec, _⟩ := hp
      have hsum := errors_le_sent actors s hinv
      have hle := numFinished_le s.tasks
      have herr : s.errors.length = 0 := by omega
      have herr2 : s.errors = [] := List.length_eq_zero.mp herr
      have hall := numFinished_all s.tasks (by omega)
      have hfin : ∀ i, i < actors.length → s.tasks[i]? = some Task.finished := by
        intro i hi
        have hi2 : i < s.tasks.length := by omega
        rw [List.getElem?_eq_getElem hi2]
        exact congrArg some (hall _ (List.getElem_mem hi2))
      refine ⟨hrec, by rw [hinv.sent_len]; omega, ?_, herr2, hlen, hfin, ?_⟩
      · have hf := hinv.fifo
        rw [herr2, List.append_nil] at hf
        exact hf.symm
      · intro i hi
        have hmem := (hinv.sent_iff i).mpr (hfin i hi)
        obtain ⟨p, hp1, hp2⟩ := List.mem_map.mp hmem
        refine ⟨p.2, ?_, ?_⟩
        · rw [← hp2]; exact hp1
        · have := (trace_exec actors h sched s hs).2 p hp1
          rw [hp2] at this
          exact this
  · intro hm he
    simp [step, stepMain, hm, he]
  · intro i err hm
    simp only [Phase, hm] at hp
    refine ⟨hp.2.2.2.2.1, ?_, ?_⟩
    · intro hi he
      simp [step, stepMain, hm, he, hi]
    · intro hi hc
      simp [step, hc, stepMain, hm, hi]

theorem run_returns_after_all_tasks_witness :
    exec [Done none, Done (some 7)] (State.init Heap.empty) schedTwoDone = some endTwoDone ∧
    endTwoDone.main = Main.returned none ∧
    (endTwoDone.received.length = 2 ∧ endTwoDone.sent.length = 2 ∧
      endTwoDone.received = endTwoDone.sent.map Prod.snd ∧
      endTwoDone.errors = [] ∧ endTwoDone.tasks.length = 2 ∧
      (∀ i, i < 2 → endTwoDone.tasks[i]? = some Task.finished) ∧
      (∀ i, i < 2 →
        ∃ r, (i, r) ∈ endTwoDone.sent ∧
          ExecuteReturned [Done none, Done (some 7)] Heap.empty schedTwoDone i r)) :=
  ⟨rfl, rfl,
    (run_returns_after_all_tasks [Done none, Done (some 7)] Heap.empty schedTwoDone
      endTwoDone (by simp) rfl).1 none rfl⟩

/-- C10: for every group and every schedule, the result channel never
holds more than `n` values, no task has sent twice, and a task that stands at
its send can always make it: there is room in the channel (its capacity is
`n`), so the send is a move of that task whatever `Run` is doing. -/
theorem run_send_never_blocks (actors : List Actor) (h : Heap) (sched : List Who)
    (s : State) (hs : exec actors (State.init h) sched = some s) :
    s.errors.length ≤ actors.length ∧ (s.sent.map Prod.fst).Nodup ∧
    s.sent.length ≤ actors.length ∧
    (∀ i r, s.tasks[i]? = some (Task.sending r) →
      s.cap = actors.length ∧ s.errors.length < s.cap ∧
      (s.crashed = false →
        step actors s (Who.task i) =
          some { s with errors := s.errors ++ [r], sent := s.sent ++ [(i, r)],
                        tasks := s.tasks.set i Task.finished })) := by
  have hinv := inv_reach actors h sched s hs
  have hsum := errors_le_sent actors s hinv
  have hle := numFinished_le s.tasks
  have hlen := hinv.tasks_le
  refine ⟨by omega, hinv.sent_nodup, by rw [hinv.sent_len]; omega, ?_⟩
  intro i r ht
  have hlt : i < s.tasks.length := by
    by_contra hc
    rw [List.getElem?_eq_none (by omega)] at ht
    cases ht
  have hcap := cap_of_tasks actors s hinv (by omega)
  have hnf := numFinished_lt s.tasks i _ ht (by simp)
  have hroom : s.errors.length < s.cap := by omega
  refine ⟨hcap, hroom, ?_⟩
  intro hcr
  have hia : i < actors.length := by omega
  simp [step, hcr, stepTask, ht, List.getElem?_eq_getElem hia, hroom]

theorem run_send_never_blocks_witness :
    exec [Done none, Done (some 7)] (State.init Heap.empty) schedAtSend = some stateAtSend ∧
    (stateAtSend.errors.length ≤ 2 ∧ (stateAtSend.sent.map Prod.fst).Nodup ∧
    stateAtSend.sent.length ≤ 2 ∧
    (∀ i r, stateAtSend.tasks[i]? = some (Task.sending r) →
      stateAtSend.cap = 2 ∧ stateAtSend.errors.length < stateAtSend.cap ∧
      (stateAtSend.crashed = false →
        step [Done none, Done (some 7)] stateAtSend (Who.task i) =
          some { stateAtSend with errors := stateAtSend.errors ++ [r],
                                  sent := stateAtSend.sent ++ [(i, r)],
                                  tasks := stateAtSend.tasks.set i Task.finished }))) :=
  ⟨rfl, run_send_never_blocks [Done none, Done (some 7)] Heap.empty schedAtSend
    stateAtSend rfl⟩

/-- C6 (what the code does): for every function `fn` and heap, the first
`Interrupt` of the actor `WithChannel(fn)` closes the stop channel and returns,
and a second `Interrupt` panics, because it closes the closed channel. -/
theorem withChannel_second_interrupt_panics (fn : Chan → Func Error) (h : Heap) :
    (WithChannel fn h).1.Interrupt 0 (WithChannel fn h).2 =
        Step.done ((WithChannel fn h).2.close h.chans.length) () ∧
      (WithChannel fn h).1.Interrupt 0 ((WithChannel fn h).2.close h.chans.length) =
        Step.panic := by
  simp [WithChannel, Heap.makeChan, New, Actor.Interrupt, closeChan, Heap.isClosed,
    Heap.close, List.getD_eq_getElem?_getD]

/-- C7: `Interrupt` returns at once, without panic, in every heap (so also
after `Execute` has returned) for `Done` and `WithContext`; for `WithChannel`
in every heap in which the stop channel is still open, that is, when no
`Interrupt` came before; and for `New` whenever the supplied function does. -/
theorem interrupt_after_return_ok :
    (∀ (r : Error) (pc : Nat) (h : Heap), (Done r).Interrupt pc h = Step.done h ()) ∧
    (∀ (ctx : Context) (fn : Context → Func Error) (h0 h : Heap) (pc : Nat),
      (WithContext ctx fn h0).1.Interrupt pc h = Step.done (h.cancel h0.ctxs.length) ()) ∧
    (∀ (fn : Chan → Func Error) (h0 h : Heap) (pc : Nat),
      h.isClosed h0.chans.length = false →
      (WithChannel fn h0).1.Interrupt pc h = Step.done (h.close h0.chans.length) ()) ∧
    (∀ (execute : Func Error) (interrupt : Func Unit) (h h1 : Heap) (pc : Nat),
      interrupt pc h = Step.done h1 () →
      (New execute interrupt).Interrupt pc h = Step.done h1 ()) := by
  refine ⟨?_, ?_, ?_, ?_⟩
  · intro r pc h; rfl
  · intro ctx fn h0 h pc; rfl
  · intro fn h0 h pc hopen
    simp [WithChannel, Heap.makeChan, New, Actor.Interrupt, closeChan, hopen]
  · intro e i h h1 pc hi; exact hi

theorem interrupt_after_return_ok_witness :
    (WithChannel (waitChan none) Heap.empty).2.isClosed 0 = false ∧
    (WithChannel (waitChan none) Heap.empty).1.Interrupt 0
        (WithChannel (waitChan none) Heap.empty).2 =
      Step.done ((WithChannel (waitChan none) Heap.empty).2.close 0) () ∧
    (New (fun _ h => Step.done h none) (fun _ h => Step.done h ())).Interrupt 0 Heap.empty =
      Step.done Heap.empty () :=
  ⟨rfl, interrupt_after_return_ok.2.2.1 (waitChan none) Heap.empty
      (WithChannel (waitChan none) Heap.empty).2 0 rfl,
    interrupt_after_return_ok.2.2.2 (fun _ h => Step.done h none) (fun _ h => Step.done h ())
      Heap.empty Heap.empty 0 rfl⟩

/-- C8: for every parent context, function and heap, `Execute` of
`WithContext(parent, fn)` is `fn` applied to a context derived from `parent`
(done whenever `parent` is, and not cancelled when made); `Interrupt` returns
and leaves that context done; and when `fn` waits for the context to be done
and then returns `E`, `Execute` is blocked while the context is not done,
returns `E` in the heap `Interrupt` leaves, and never returns anything else. -/
theorem withContext_interrupt_releases (parent : Context) (E : Error) (h0 h : Heap)
    (halloc : h0.ctxs.length < h.ctxs.length) :
    (∀ (fn : Context → Func Error) (pc : Nat) (h2 : Heap),
      (WithContext parent fn h0).1.Execute pc h2 = fn (derived parent h0.ctxs.length) pc h2) ∧
    (∀ h2, parent.done h2 = true → (derived parent h0.ctxs.length).done h2 = true) ∧
    (derived parent h0.ctxs.length).done (WithContext parent (waitCtx E) h0).2 =
      parent.done (WithContext parent (waitCtx E) h0).2 ∧
    (WithContext parent (waitCtx E) h0).1.Interrupt 0 h =
      Step.done (h.cancel h0.ctxs.length) () ∧
    (derived parent h0.ctxs.length).done (h.cancel h0.ctxs.length) = true ∧
    (WithContext parent (waitCtx E) h0).1.Execute 0 (h.cancel h0.ctxs.length) =
      Step.done (h.cancel h0.ctxs.length) E ∧
    (∀ pc h2, (derived parent h0.ctxs.length).done h2 = false →
      (WithContext parent (waitCtx E) h0).1.Execute pc h2 = Step.block) ∧
    (∀ pc h2 h3 r, (WithContext parent (waitCtx E) h0).1.Execute pc h2 = Step.done h3 r →
      r = E) := by
  have hd : (derived parent h0.ctxs.length).done (h.cancel h0.ctxs.length) = true := by
    simp only [derived, Heap.cancel]
    rw [getD_set_true _ _ halloc]; rfl
  refine ⟨?_, ?_, ?_, ?_, hd, ?_, ?_, ?_⟩
  · intro fn pc h2; rfl
  · intro h2 hp; simp [derived, hp]
  · simp [WithContext, WithCancel, derived, List.getD_eq_getElem?_getD]
  · rfl
  · show waitCtx E (derived parent h0.ctxs.length) 0 (h.cancel h0.ctxs.length) = _
    simp [waitCtx, hd]
  · intro pc h2 hnd
    show waitCtx E (derived parent h0.ctxs.length) pc h2 = _
    simp [waitCtx, hnd]
  · intro pc h2 h3 r hr
    change waitCtx E (derived parent h0.ctxs.length) pc h2 = _ at hr
    simp only [waitCtx] at hr
    split at hr
    · cases hr; rfl
    · cases hr

theorem withContext_interrupt_releases_witness :
    (WithContext Background (waitCtx (some 7)) Heap.empty).1.Execute 0
        (WithContext Background (waitCtx (some 7)) Heap.empty).2 = Step.block ∧
    (WithContext Background (waitCtx (some 7)) Heap.empty).1.Interrupt 0
        (WithContext Background (waitCtx (some 7)) Heap.empty).2 =
      Step.done ((WithContext Background (waitCtx (some 7)) Heap.empty).2.cancel 0) () ∧
    (WithContext Background (waitCtx (some 7)) Heap.empty).1.Execute 0
        ((WithContext Background (waitCtx (some 7)) Heap.empty).2.cancel 0) =
      Step.done ((WithContext Background (waitCtx (some 7)) Heap.empty).2.cancel 0) (some 7) :=
  ⟨rfl,
   (withContext_interrupt_releases Background (some 7) Heap.empty
      (WithContext Background (waitCtx (some 7)) Heap.empty).2 (by decide)).2.2.2.1,
   (withContext_interrupt_releases Background (some 7) Heap.empty
      (WithContext Background (waitCtx (some 7)) Heap.empty).2 (by decide)).2.2.2.2.2.1⟩

/-- C9: for every result `R`, the actor `WithChannel(fn)` with `fn` receiving
from the stop channel and then returning `R` has a stop channel that is open
when made; in every heap in which that channel is open `Execute` is blocked;
the first `Interrupt` returns and leaves the channel closed; in that heap
`Execute` returns `R`; and `Execute` never returns anything else. -/
theorem withChannel_waits_for_interrupt (R : Error) (h0 h : Heap)
    (halloc : h0.chans.length < h.chans.length)
    (hopen : h.isClosed h0.chans.length = false) :
    (WithChannel (waitChan R) h0).2.isClosed h0.chans.length = false ∧
    (∀ pc h2, h2.isClosed h0.chans.length = false →
      (WithChannel (waitChan R) h0).1.Execute pc h2 = Step.block) ∧
    (WithChannel (waitChan R) h0).1.Interrupt 0 h = Step.done (h.close h0.chans.length) () ∧
    (h.close h0.chans.length).isClosed h0.chans.length = true ∧
    (WithChannel (waitChan R) h0).1.Execute 0 (h.close h0.chans.length) =
      Step.done (h.close h0.chans.length) R ∧
    (∀ pc h2 h3 r, (WithChannel (waitChan R) h0).1.Execute pc h2 = Step.done h3 r →
      r = R ∧ h2.isClosed h0.chans.length = true) := by
  have hc : (h.close h0.chans.length).isClosed h0.chans.length = true := by
    simp only [Heap.close, Heap.isClosed]
    exact getD_set_true _ _ halloc
  refine ⟨?_, ?_, ?_, hc, ?_, ?_⟩
  · simp [WithChannel, Heap.makeChan, Heap.isClosed, List.getD_eq_getElem?_getD]
  · intro pc h2 ho
    show waitChan R h0.chans.length pc h2 = _
    simp [waitChan, ho]
  · show closeChan h0.chans.length 0 h = _
    simp [closeChan, hopen]
  · show waitChan R h0.chans.length 0 (h.close h0.chans.length) = _
    simp [waitChan, hc]
  · intro pc h2 h3 r hr
    change waitChan R h0.chans.length pc h2 = _ at hr
    simp only [waitChan] at hr
    split at hr
    · rename_i hcl; cases hr; exact ⟨rfl, hcl⟩
    · cases hr

theorem withChannel_waits_for_interrupt_witness :
    (waiter (some 7) Heap.empty).1.Execute 0 (waiter (some 7) Heap.empty).2 = Step.block ∧
    (waiter (some 7) Heap.empty).1.Interrupt 0 (waiter (some 7) Heap.empty).2 =
      Step.done ((waiter (some 7) Heap.empty).2.close 0) () ∧
    (waiter (some 7) Heap.empty).1.Execute 0 ((waiter (some 7) Heap.empty).2.close 0) =
      Step.done ((waiter (some 7) Heap.empty).2.close 0) (some 7) :=
  ⟨rfl,
   (withChannel_waits_for_interrupt (some 7) Heap.empty (waiter (some 7) Heap.empty).2
      (by decide) rfl).2.2.1,
   (withChannel_waits_for_interrupt (some 7) Heap.empty (waiter (some 7) Heap.empty).2
      (by decide) rfl).2.2.2.2.1⟩

end Group
